import Mathlib

/-!
Verification of the address identity resolution and cache subsystem of
grtinfo (`src/ens_client.py`, class `ENSClient`).

The embedding models Python values flowing through the client as `PyVal`
(JSON-shaped dynamic values), Python `dict.get` / subscription / iteration /
`str.lower` as partial operations in `Except Unit` (the error standing for an
uncaught Python exception such as `AttributeError` or `TypeError`), and the
remote subgraph as a `Transport`: for each of the four GraphQL query templates
in the source, the value that `ENSClient.query` returns for it.  `query`
itself swallows every transport error and returns a dict (possibly empty), so
an arbitrary `PyVal` response models every reachable outcome of that method.

Each public operation additionally returns the list of transport calls it
issued, so "no network round-trip" properties are statements about that list.
-/

/-- A Python/JSON value as it appears in the client: `None`, booleans, numbers
(modelled as integers; only additions, subtractions and comparisons occur),
strings, lists, and string-keyed dicts in insertion order. -/
inductive PyVal where
  | pnone : PyVal
  | pbool : Bool → PyVal
  | pnum : Int → PyVal
  | pstr : String → PyVal
  | plist : List PyVal → PyVal
  | pdict : List (String × PyVal) → PyVal

open PyVal

/-- First-match association-list lookup: Python `d[k]` / `k in d` on dicts. -/
def lookupKV : List (String × PyVal) → String → Option PyVal
  | [], _ => none
  | (k, v) :: rest, key => if k = key then some v else lookupKV rest key

/-- Python dict assignment `d[k] = v`: replaces the value at an existing key in
place, otherwise appends the binding (insertion order). -/
def setKV : List (String × PyVal) → String → PyVal → List (String × PyVal)
  | [], key, v => [(key, v)]
  | (k, w) :: rest, key, v =>
    if k = key then (k, v) :: rest else (k, w) :: setKV rest key v

/-- Python truthiness of the modelled values. -/
def truthy : PyVal → Bool
  | pnone => false
  | pbool b => b
  | pnum n => n != 0
  | pstr s => !(s == "")
  | plist xs => !xs.isEmpty
  | pdict kvs => !kvs.isEmpty

/-- ASCII lowercasing of one character, as `str.lower` acts on the address and
name strings handled by the client. -/
def charLower (c : Char) : Char :=
  if 65 ≤ c.toNat ∧ c.toNat ≤ 90 then Char.ofNat (c.toNat + 32) else c

/-- `str.lower` on strings. -/
def strLower (s : String) : String := ⟨s.data.map charLower⟩

/-- `str.startswith`. -/
def strStarts (s p : String) : Bool := p.data.isPrefixOf s.data

/-- `str.endswith`. -/
def strEnds (s p : String) : Bool := p.data.isSuffixOf s.data

/-- Python `v.get(k, default)`: defaulting lookup on a dict, `AttributeError`
on any non-dict receiver. -/
def pyGetD : PyVal → String → PyVal → Except Unit PyVal
  | pdict kvs, k, d => .ok ((lookupKV kvs k).getD d)
  | _, _, _ => .error ()

/-- Python `v[0]`: head of a list (or a one-character string of a string);
`IndexError`/`KeyError`/`TypeError` otherwise. -/
def getItem0 : PyVal → Except Unit PyVal
  | plist (x :: _) => .ok x
  | pstr s =>
    match s.data with
    | c :: _ => .ok (pstr (String.mk [c]))
    | [] => .error ()
  | _ => .error ()

/-- Python `for x in v`: lists yield elements, strings their characters, dicts
their keys; anything else raises `TypeError`. -/
def pyIter : PyVal → Except Unit (List PyVal)
  | plist xs => .ok xs
  | pstr s => .ok (s.data.map fun c => pstr (String.mk [c]))
  | pdict kvs => .ok (kvs.map fun kv => pstr kv.1)
  | _ => .error ()

/-- Numeric view of a value for Python arithmetic (`bool` is an `int`
subclass); `none` models the `TypeError` of `now - entry['timestamp']`. -/
def pyToNum : PyVal → Option Int
  | pnum n => some n
  | pbool b => some (if b then 1 else 0)
  | _ => none

/-- Python `v.lower()`: only strings carry the method. -/
def pyLowerStr : PyVal → Except Unit String
  | pstr s => .ok (strLower s)
  | _ => .error ()

/-- The in-memory cache `self._cache`: insertion-ordered mapping from address
strings to stored values. -/
abbrev Cache : Type := List (String × PyVal)

/-- One transport call issued by a public operation, tagged by which of the
four GraphQL query templates of `ens_client.py` it instantiates. -/
inductive QueryCall where
  | qOne : String → QueryCall
  | qBatch : List String → QueryCall
  | qExact : String → QueryCall
  | qContains : String → QueryCall
deriving DecidableEq

/-- The remote subgraph as seen through `ENSClient.query`: for each query
template and variable binding, the dict that `query` returns.  `query` never
raises and maps every error to `{}`, so an arbitrary `PyVal` here ranges over
exactly the values the client code can receive. -/
structure Transport where
  resolveOne : String → PyVal
  resolveBatch : List String → PyVal
  exactName : String → PyVal
  nameContains : String → PyVal

/-- A freshly written cache entry `{'name': name, 'timestamp': now}`. -/
def mkEntry (namev : PyVal) (now : Int) : PyVal :=
  pdict [("name", namev), ("timestamp", pnum now)]

/-- The effective timestamp `now - ttl + 3600` given to a legacy (bare
string / null) cache entry at load time (`_load_cache`, line 53). -/
def legacyTimestamp (now ttl : Int) : Int := now - ttl + 3600

/-- The normalized form a legacy entry takes after `_load_cache`. -/
def legacyEntry (e : PyVal) (now ttl : Int) : PyVal :=
  pdict [("name", e), ("timestamp", pnum (legacyTimestamp now ttl))]

/-- The loop body of `_load_cache` over the parsed on-disk document.  A dict
entry carrying `name` and `timestamp` keys is kept iff `now - timestamp <
ttl`; a bare string or null is normalized with the one-hour-grace timestamp; a
non-numeric timestamp raises `TypeError`, aborting the loop with the entries
accumulated so far (the surrounding `try` swallows the exception). -/
def loadGo (now ttl : Int) : List (String × PyVal) → Cache → Cache
  | [], acc => acc
  | (a, e) :: rest, acc =>
    match e with
    | pdict kvs =>
      match lookupKV kvs "name", lookupKV kvs "timestamp" with
      | some _, some tsv =>
        match pyToNum tsv with
        | some ts =>
          if now - ts < ttl then loadGo now ttl rest (setKV acc a e)
          else loadGo now ttl rest acc
        | none => acc
      | _, _ => loadGo now ttl rest acc
    | pstr _ => loadGo now ttl rest (setKV acc a (legacyEntry e now ttl))
    | pnone => loadGo now ttl rest (setKV acc a (legacyEntry e now ttl))
    | _ => loadGo now ttl rest acc

/-- `ENSClient._load_cache` on an already-parsed document: a non-dict document
(or an unreadable/corrupt file, modelled by any such value) degrades to the
empty cache. -/
def load_cache (doc : PyVal) (now ttl : Int) : Cache :=
  match doc with
  | pdict kvs => loadGo now ttl kvs []
  | _ => []

/-- `ENSClient._save_cache`: the on-disk document is the JSON dump of the
in-memory mapping. -/
def save_doc (c : Cache) : PyVal := pdict c

/-- The view `resolve_address` / `resolve_addresses_batch` take of a cached
entry: `entry.get('name')` when the entry is a dict, the entry itself
otherwise. -/
def entryView : PyVal → PyVal
  | pdict kvs => (lookupKV kvs "name").getD pnone
  | e => e

/-- The `try` body of `resolve_address` lines 118-128 after the transport
response `r` is in hand: `some name` when the positive branch caches and
returns a truthy name; `none` when the body falls through (no domain, falsy
name) or raises (swallowed by the bare `except`), in which case the negative
branch runs. -/
def tryPositive (r : PyVal) : Option PyVal :=
  match pyGetD r "domains" (plist []) with
  | .error _ => none
  | .ok domains =>
    if truthy domains then
      match getItem0 domains with
      | .error _ => none
      | .ok d0 =>
        match pyGetD d0 "name" pnone with
        | .error _ => none
        | .ok namev => if truthy namev then some namev else none
    else none

/-- `ENSClient.resolve_address`.  Returns the Python return value, the
updated in-memory cache, and the transport calls issued. -/
def resolve_address (t : Transport) (now : Int) (c : Cache) (address : String) :
    PyVal × Cache × List QueryCall :=
  if address = "" ∨ address = "Unknown" then (pnone, c, [])
  else
    let al := strLower address
    match lookupKV c al with
    | some entry => (entryView entry, c, [])
    | none =>
      match tryPositive (t.resolveOne al) with
      | some namev => (namev, setKV c al (mkEntry namev now), [QueryCall.qOne al])
      | none => (pnone, setKV c al (mkEntry pnone now), [QueryCall.qOne al])

/-- `[addr.lower() for addr in addresses if addr and addr != 'Unknown']`. -/
def normInputs (addresses : List String) : List String :=
  (addresses.filter fun a => !(a = "" ∨ a = "Unknown" : Bool)).map strLower

/-- Intermediate state of `resolve_addresses_batch`: the `results` dict and
the in-memory cache, both mutated in place by the Python loops. -/
structure BatchAcc where
  results : List (String × PyVal)
  cache : Cache

/-- The cache-scan loop of `resolve_addresses_batch` lines 151-160, processing
the normalized addresses in order: cached addresses fill `results` with the
entry's name view, uncached ones are appended to `to_query`. -/
def cacheScanGo (c : Cache) :
    List String → List (String × PyVal) → List String →
    List (String × PyVal) × List String
  | [], res, tq => (res, tq)
  | a :: rest, res, tq =>
    match lookupKV c a with
    | some e => cacheScanGo c rest (setKV res a (entryView e)) tq
    | none => cacheScanGo c rest res (tq ++ [a])

/-- One iteration of the domain loop of `resolve_addresses_batch` lines
183-188.  `.error` models an exception raised by the statement
`domain.get('resolvedAddress', {}).get('id', '').lower()` (e.g. a non-dict
record, a null `resolvedAddress`, or a non-string id), leaving the state as it
was; thanks to short-circuiting nothing is mutated by a raising iteration. -/
def domainStep (now : Int) (d : PyVal) (acc : BatchAcc) : Except BatchAcc BatchAcc :=
  match pyGetD d "resolvedAddress" (pdict []) with
  | .error _ => .error acc
  | .ok ra =>
    match pyGetD ra "id" (pstr "") with
    | .error _ => .error acc
    | .ok idv =>
      match pyLowerStr idv with
      | .error _ => .error acc
      | .ok addr =>
        match pyGetD d "name" pnone with
        | .error _ => .error acc
        | .ok namev =>
          if !(addr = "" : Bool) && truthy namev then
            .ok ⟨setKV acc.results addr namev, setKV acc.cache addr (mkEntry namev now)⟩
          else .ok acc

/-- The domain loop; an exception aborts it keeping the mutations already
performed (the surrounding `try` then jumps past the negative fill-in). -/
def domainLoop (now : Int) : List PyVal → BatchAcc → Except BatchAcc BatchAcc
  | [], acc => .ok acc
  | d :: ds, acc =>
    match domainStep now d acc with
    | .error a => .error a
    | .ok a => domainLoop now ds a

/-- The negative-result loop of `resolve_addresses_batch` lines 191-194:
every queried address still missing from `results` is recorded as a negative
entry in both the output and the cache. -/
def negFill (now : Int) : List String → BatchAcc → BatchAcc
  | [], acc => acc
  | a :: rest, acc =>
    match lookupKV acc.results a with
    | some _ => negFill now rest acc
    | none =>
      negFill now rest ⟨setKV acc.results a pnone, setKV acc.cache a (mkEntry pnone now)⟩

/-- `ENSClient.resolve_addresses_batch`.  Returns the `results` dict, the
updated cache, and the transport calls issued. -/
def resolve_addresses_batch (t : Transport) (now : Int) (c : Cache)
    (addresses : List String) :
    List (String × PyVal) × Cache × List QueryCall :=
  let al := normInputs addresses
  if al.isEmpty then ([], c, [])
  else
    let sc := cacheScanGo c al [] []
    if sc.2.isEmpty then (sc.1, c, [])
    else
      match pyGetD (t.resolveBatch sc.2) "domains" (plist []) with
      | .error _ => (sc.1, c, [QueryCall.qBatch sc.2])
      | .ok dv =>
        match pyIter dv with
        | .error _ => (sc.1, c, [QueryCall.qBatch sc.2])
        | .ok ds =>
          match domainLoop now ds ⟨sc.1, c⟩ with
          | .error acc => (acc.results, acc.cache, [QueryCall.qBatch sc.2])
          | .ok acc =>
            let acc2 := negFill now sc.2 acc
            (acc2.results, acc2.cache, [QueryCall.qBatch sc.2])

/-- One exact-match stage of `resolve_name` (lines 249-254 and 259-264) on the
transport response `r`: `.ok (some v)` when the stage returns `v` (the
`resolvedAddress` dict is truthy and `v` is its `id`, possibly `None`),
`.ok none` when the stage falls through, `.error` when it raises. -/
def exactStage (r : PyVal) : Except Unit (Option PyVal) :=
  match pyGetD r "domains" (plist []) with
  | .error e => .error e
  | .ok domains =>
    if truthy domains then
      match getItem0 domains with
      | .error e => .error e
      | .ok d0 =>
        match pyGetD d0 "resolvedAddress" (pdict []) with
        | .error e => .error e
        | .ok resolved =>
          if truthy resolved then
            match pyGetD resolved "id" pnone with
            | .error e => .error e
            | .ok idv => .ok (some idv)
          else .ok none
    else .ok none

/-- One iteration of the candidate loop of `resolve_name` lines 286-295:
lowercase the record's name, gate on a truthy `resolvedAddress` with a truthy
`id`, then return the id if the name starts with `fragment + '-'` or
`fragment + '.'`, or — equally — merely starts with `fragment`. -/
def fuzzyStep (n : String) (d : PyVal) : Except Unit (Option PyVal) :=
  match pyGetD d "name" (pstr "") with
  | .error e => .error e
  | .ok namev =>
    match pyLowerStr namev with
    | .error e => .error e
    | .ok dn =>
      match pyGetD d "resolvedAddress" (pdict []) with
      | .error e => .error e
      | .ok resolved =>
        if truthy resolved then
          match pyGetD resolved "id" pnone with
          | .error e => .error e
          | .ok idv =>
            if truthy idv then
              if strStarts dn (n ++ "-") || strStarts dn (n ++ ".") then .ok (some idv)
              else if strStarts dn n then .ok (some idv)
              else .ok none
            else .ok none
        else .ok none

/-- The candidate loop: the first iteration that returns wins. -/
def fuzzyLoop (n : String) : List PyVal → Except Unit (Option PyVal)
  | [] => .ok none
  | d :: ds =>
    match fuzzyStep n d with
    | .error e => .error e
    | .ok (some v) => .ok (some v)
    | .ok none => fuzzyLoop n ds

/-- The last-resort branch of `resolve_name` lines 296-298:
`domains[0].get('resolvedAddress', {}).get('id')`, returned if truthy, else
the final `return None`.  Note the missing null guard: a null
`resolvedAddress` on the first record raises here. -/
def lastPick (domains : PyVal) : Except Unit PyVal :=
  match getItem0 domains with
  | .error e => .error e
  | .ok d0 =>
    match pyGetD d0 "resolvedAddress" (pdict []) with
    | .error e => .error e
    | .ok resolved =>
      match pyGetD resolved "id" pnone with
      | .error e => .error e
      | .ok idv => .ok (if truthy idv then idv else pnone)

/-- The whole substring-search stage of `resolve_name` lines 281-300 on the
transport response `r`. -/
def fuzzyStage (r : PyVal) (n : String) : Except Unit PyVal :=
  match pyGetD r "domains" (plist []) with
  | .error e => .error e
  | .ok domains =>
    if truthy domains then
      match pyIter domains with
      | .error e => .error e
      | .ok ds =>
        match fuzzyLoop n ds with
        | .error e => .error e
        | .ok (some v) => .ok v
        | .ok none => lastPick domains
    else .ok pnone

/-- `ENSClient.resolve_name`: exact match, then exact match with `.eth`
appended when the name does not already end in `.eth`, then substring search.
The operation is not wrapped in any `try`, so a raising stage propagates
(`.error`).  Also returns the transport calls issued. -/
def resolve_name (t : Transport) (name : String) : Except Unit PyVal × List QueryCall :=
  let n := strLower name
  match exactStage (t.exactName n) with
  | .error e => (.error e, [QueryCall.qExact n])
  | .ok (some v) => (.ok v, [QueryCall.qExact n])
  | .ok none =>
    if strEnds n ".eth" then
      (fuzzyStage (t.nameContains n) n, [QueryCall.qExact n, QueryCall.qContains n])
    else
      match exactStage (t.exactName (n ++ ".eth")) with
      | .error e => (.error e, [QueryCall.qExact n, QueryCall.qExact (n ++ ".eth")])
      | .ok (some v) => (.ok v, [QueryCall.qExact n, QueryCall.qExact (n ++ ".eth")])
      | .ok none =>
        (fuzzyStage (t.nameContains n) n,
         [QueryCall.qExact n, QueryCall.qExact (n ++ ".eth"), QueryCall.qContains n])

/-- `ENSClient.search_by_ens`: `result.get('domains', [])` on the transport
response, with no surrounding `try` (a non-dict response raises). -/
def search_by_ens (t : Transport) (fragment : String) :
    Except Unit PyVal × List QueryCall :=
  (pyGetD (t.nameContains (strLower fragment)) "domains" (plist []),
   [QueryCall.qContains (strLower fragment)])

/-! ## Basic lemmas about the dict model -/

theorem lookupKV_setKV_self (c : List (String × PyVal)) (k : String) (v : PyVal) :
    lookupKV (setKV c k v) k = some v := by
  induction c with
  | nil => simp [setKV, lookupKV]
  | cons p rest ih =>
    obtain ⟨k0, v0⟩ := p
    by_cases h : k0 = k
    · simp [setKV, lookupKV, h]
    · simp [setKV, lookupKV, h, ih]

theorem lookupKV_setKV_ne (c : List (String × PyVal)) (k k' : String) (v : PyVal)
    (h : k' ≠ k) : lookupKV (setKV c k v) k' = lookupKV c k' := by
  have h' : ¬k = k' := fun hh => h hh.symm
  induction c with
  | nil => simp [setKV, lookupKV, h']
  | cons p rest ih =>
    obtain ⟨k0, v0⟩ := p
    by_cases h0 : k0 = k
    · subst h0
      simp [setKV, lookupKV, h']
    · simp only [setKV, if_neg h0, lookupKV]
      by_cases h1 : k0 = k'
      · simp [h1]
      · simp [h1, ih]

theorem lookupKV_mem {c : List (String × PyVal)} {k : String} {v : PyVal}
    (h : lookupKV c k = some v) : (k, v) ∈ c := by
  induction c with
  | nil => simp [lookupKV] at h
  | cons p rest ih =>
    obtain ⟨k0, v0⟩ := p
    by_cases h0 : k0 = k
    · subst h0
      simp [lookupKV] at h
      simp [h]
    · simp only [lookupKV, if_neg h0] at h
      exact List.mem_cons_of_mem _ (ih h)

theorem lookupKV_append (l1 l2 : List (String × PyVal)) (k : String) :
    lookupKV (l1 ++ l2) k =
      (match lookupKV l1 k with | some v => some v | none => lookupKV l2 k) := by
  induction l1 with
  | nil => simp [lookupKV]
  | cons p rest ih =>
    obtain ⟨k0, v0⟩ := p
    by_cases h0 : k0 = k
    · simp [lookupKV, h0]
    · simp [lookupKV, h0, ih]

theorem lookupKV_none_of_not_mem {c : List (String × PyVal)} {k : String}
    (h : k ∉ c.map Prod.fst) : lookupKV c k = none := by
  induction c with
  | nil => rfl
  | cons p rest ih =>
    obtain ⟨k0, v0⟩ := p
    simp only [List.map_cons, List.mem_cons] at h
    push_neg at h
    have h' : ¬k0 = k := fun hh => h.1 hh.symm
    simp [lookupKV, h', ih h.2]

theorem not_mem_of_lookupKV_none {c : List (String × PyVal)} {k : String}
    (h : lookupKV c k = none) : k ∉ c.map Prod.fst := by
  induction c with
  | nil => simp
  | cons p rest ih =>
    obtain ⟨k0, v0⟩ := p
    by_cases h0 : k0 = k
    · simp [lookupKV, h0] at h
    · simp only [lookupKV, if_neg h0] at h
      have h' : ¬k = k0 := fun hh => h0 hh.symm
      simp [ih h, h']

theorem setKV_of_none {c : List (String × PyVal)} {k : String} (v : PyVal)
    (h : lookupKV c k = none) : setKV c k v = c ++ [(k, v)] := by
  induction c with
  | nil => rfl
  | cons p rest ih =>
    obtain ⟨k0, v0⟩ := p
    by_cases h0 : k0 = k
    · simp [lookupKV, h0] at h
    · simp only [lookupKV, if_neg h0] at h
      simp [setKV, h0, ih h]

theorem entryView_mkEntry (v : PyVal) (now : Int) : entryView (mkEntry v now) = v := rfl

/-! ## Lowercasing lemmas -/

theorem charLower_toNat_of_upper (c : Char) (h : 65 ≤ c.toNat ∧ c.toNat ≤ 90) :
    (charLower c).toNat = c.toNat + 32 := by
  rw [charLower, if_pos h]
  obtain ⟨h1, h2⟩ := h
  generalize hn : c.toNat + 32 = n
  have hn1 : 97 ≤ n := by omega
  have hn2 : n ≤ 122 := by omega
  interval_cases n <;> decide

theorem charLower_ne_upper (c : Char) :
    ¬(65 ≤ (charLower c).toNat ∧ (charLower c).toNat ≤ 90) := by
  by_cases h : 65 ≤ c.toNat ∧ c.toNat ≤ 90
  · rw [charLower_toNat_of_upper c h]
    omega
  · rw [charLower, if_neg h]
    exact h

theorem charLower_ne_U (c : Char) : charLower c ≠ 'U' := by
  intro h
  have hu := charLower_ne_upper c
  rw [h] at hu
  exact hu (by decide)

theorem strLower_ne_Unknown (s : String) : strLower s ≠ "Unknown" := by
  intro h
  have hd : s.data.map charLower = "Unknown".data := congrArg String.data h
  cases hdata : s.data with
  | nil => rw [hdata] at hd; exact absurd hd (by decide)
  | cons c rest =>
    rw [hdata] at hd
    have hu : "Unknown".data = 'U' :: "nknown".data := by decide
    rw [hu, List.map_cons] at hd
    exact charLower_ne_U c (List.cons.inj hd).1

theorem strLower_eq_empty_iff (s : String) : strLower s = "" ↔ s = "" := by
  cases s with
  | mk d =>
    cases d with
    | nil => exact ⟨fun _ => rfl, fun _ => rfl⟩
    | cons c rest =>
      constructor
      · intro h
        have hd : charLower c :: rest.map charLower = [] := congrArg String.data h
        exact absurd hd (by simp)
      · intro h
        have hd : (c : Char) :: rest = [] := congrArg String.data h
        exact absurd hd (by simp)

/-! ## Claim C9: legacy cache entries -/

/-- C9: loading a persisted cache document that stores a legacy bare string
(or null) for an address keeps the entry, normalized into the current
`{name, timestamp}` representation with the effective timestamp
`now - ttl + 3600`; under the load-time freshness predicate this entry,
re-saved and re-loaded at time `T`, is kept exactly when `T - now < 3600`
(fresh for exactly one hour from load time, for every configured TTL); and
the next save writes the current dict representation. -/
theorem c9_legacy_entries_one_hour_grace (a s : String) (now ttl T : Int) :
    load_cache (pdict [(a, pstr s)]) now ttl = [(a, legacyEntry (pstr s) now ttl)] ∧
    load_cache (pdict [(a, pnone)]) now ttl = [(a, legacyEntry pnone now ttl)] ∧
    lookupKV (load_cache (save_doc [(a, legacyEntry (pstr s) now ttl)]) T ttl) a =
      (if T - now < 3600 then some (legacyEntry (pstr s) now ttl) else none) ∧
    save_doc [(a, legacyEntry (pstr s) now ttl)] =
      pdict [(a, pdict [("name", pstr s), ("timestamp", pnum (now - ttl + 3600))])] := by
  refine ⟨rfl, rfl, ?_, rfl⟩
  simp [save_doc, load_cache, legacyEntry, loadGo, lookupKV, pyToNum, setKV, legacyTimestamp]
  split_ifs with h1 h2 h3 <;> simp [lookupKV] <;> omega

/-! ## Concrete transports used by witnesses and counterexamples -/

/-- A transport on which every query degrades to the empty dict (total backend
unavailability as surfaced by `ENSClient.query`). -/
def tNone : Transport :=
  ⟨fun _ => pdict [], fun _ => pdict [], fun _ => pdict [], fun _ => pdict []⟩

/-- A transport whose substring search returns one record with a **null**
`resolvedAddress` and a name that does not extend the query fragment
(schema-conformant: the subgraph returns `"resolvedAddress": null` for an
unresolved domain), and no exact matches. -/
def tNullResolved : Transport :=
  ⟨fun _ => pdict [], fun _ => pdict [], fun _ => pdict [],
   fun _ => pdict [("domains",
     plist [pdict [("name", pstr "zzzq.eth"), ("resolvedAddress", pnone)]])]⟩

/-- A transport whose exact-name query returns one record resolving to
`0x9`. -/
def tExactHit : Transport :=
  ⟨fun _ => pdict [], fun _ => pdict [],
   fun _ => pdict [("domains", plist [pdict [("resolvedAddress", pdict [("id", pstr "0x9")])]])],
   fun _ => pdict []⟩

/-! ## Claim C3: public operations never raise (code bug) -/

/-- C3: the claim states that no public Resolver operation ever raises, for
every transport response including records with an absent **or null**
`resolvedAddress`.  The code violates this: with no exact match and a partial
search returning a single record whose `resolvedAddress` is null and whose
name does not start with the fragment, the last-resort branch of
`resolve_name` (line 297) evaluates `None.get('id')` and the resulting
`AttributeError` propagates to the caller — `resolve_name` has no enclosing
`try`.  This theorem evaluates the embedding at that failing input; the
`.error` value is an uncaught exception escaping the public operation. -/
theorem c3_resolve_name_raises_on_null_resolved : 
    resolve_name tNullResolved "zzz" =
      (.error (), [QueryCall.qExact "zzz", QueryCall.qExact "zzz.eth",
                   QueryCall.qContains "zzz"]) := rfl

/-! ## Claim C5: cache hit avoids the network -/

/-- C5: once `resolve_address(A)` has returned (positively or negatively), a
subsequent `resolve_address` call with the same address in any letter casing
(`strLower B = strLower A`; per the glossary an address is a `0x`-prefixed
string, so no recasing collides with the `"Unknown"` sentinel handled
separately in C4) returns the same value, leaves the cache untouched, and
issues no transport call. -/
theorem c5_second_call_hits_cache (t t2 : Transport) (now now2 : Int) (c : Cache)
    (A B : String) (hA1 : A ≠ "") (hA2 : A ≠ "Unknown")
    (hB1 : B ≠ "") (hB2 : B ≠ "Unknown") (hcase : strLower B = strLower A) :
    resolve_address t2 now2 (resolve_address t now c A).2.1 B =
      ((resolve_address t now c A).1, (resolve_address t now c A).2.1,
       ([] : List QueryCall)) := by
  have hA : ¬(A = "" ∨ A = "Unknown") := by rintro (h | h); exacts [hA1 h, hA2 h]
  have hB : ¬(B = "" ∨ B = "Unknown") := by rintro (h | h); exacts [hB1 h, hB2 h]
  simp only [resolve_address, if_neg hA, if_neg hB, hcase]
  rcases hl : lookupKV c (strLower A) with _ | e
  · rcases hp : tryPositive (t.resolveOne (strLower A)) with _ | v <;>
      simp [hl, hp, lookupKV_setKV_self, entryView, mkEntry, lookupKV]
  · simp [hl]

/-- C5 witness: a concrete negative resolution for `"0xAB"` followed by a
recased `"0xab"` call. -/
theorem c5_second_call_hits_cache_witness :
    resolve_address tNone 7 (resolve_address tNone 5 [] "0xAB").2.1 "0xab" =
      ((resolve_address tNone 5 [] "0xAB").1, (resolve_address tNone 5 [] "0xAB").2.1,
       ([] : List QueryCall)) :=
  c5_second_call_hits_cache tNone tNone 5 7 [] "0xAB" "0xab"
    (by decide) (by decide) (by decide) (by decide) (by decide)

/-! ## Claim C8: exact match short-circuits the fallback chain -/

/-- C8: if the exact-match query on the lowercased name returns a record with
a (truthy) resolved address carrying an id, `resolve_name` returns that id
having issued only the one exact query — neither the suffixed-exact nor the
substring-search query is sent; and whenever the name already ends in `.eth`,
no suffixed-exact query (`qExact` on anything but the name itself) is ever
issued. -/
theorem c8_exact_match_first :
    (∀ (t : Transport) (nm : String) (kvs d0kvs rkvs : List (String × PyVal))
       (rest : List PyVal) (idv : PyVal),
      t.exactName (strLower nm) = pdict kvs →
      lookupKV kvs "domains" = some (plist (pdict d0kvs :: rest)) →
      lookupKV d0kvs "resolvedAddress" = some (pdict rkvs) →
      rkvs ≠ [] →
      lookupKV rkvs "id" = some idv →
      resolve_name t nm = (.ok idv, [QueryCall.qExact (strLower nm)])) ∧
    (∀ (t : Transport) (nm : String),
      strEnds (strLower nm) ".eth" = true →
      ∀ s, QueryCall.qExact s ∈ (resolve_name t nm).2 → s = strLower nm) := by
  constructor
  · intro t nm kvs d0kvs rkvs rest idv h1 h2 h3 h4 h5
    cases rkvs with
    | nil => exact absurd rfl h4
    | cons p rs =>
      simp [resolve_name, exactStage, pyGetD, h1, h2, h3, h5, getItem0, truthy]
  · intro t nm h s hs
    cases hst : exactStage (t.exactName (strLower nm)) with
    | error e =>
      simp [resolve_name, hst] at hs
      exact hs
    | ok o =>
      cases o with
      | some v =>
        simp [resolve_name, hst] at hs
        exact hs
      | none =>
        simp [resolve_name, hst, h] at hs
        exact hs

/-- C8 witness: a concrete exact hit, and a `.eth` name on the no-match
transport. -/
theorem c8_exact_match_first_witness :
    resolve_name tExactHit "Vitalik.eth" =
      (.ok (pstr "0x9"), [QueryCall.qExact "vitalik.eth"]) ∧
    (∀ s, QueryCall.qExact s ∈ (resolve_name tNone "alice.eth").2 → s = "alice.eth") := by
  constructor
  · exact c8_exact_match_first.1 tExactHit "Vitalik.eth"
      [("domains", plist [pdict [("resolvedAddress", pdict [("id", pstr "0x9")])]])]
      [("resolvedAddress", pdict [("id", pstr "0x9")])] [("id", pstr "0x9")] [] (pstr "0x9")
      rfl rfl rfl (List.cons_ne_nil _ _) rfl
  · intro s hs
    have h := c8_exact_match_first.2 tNone "alice.eth" (by decide) s
    rw [show strLower "alice.eth" = "alice.eth" from rfl] at h
    exact h hs

/-! ## Claim C1: separator preference in the substring-search stage -/

/-- The two partial-search candidates of the claim's scenario, returned by the
search in the order mere-prefix first, separator-bounded second. -/
def tSepOrder : Transport :=
  ⟨fun _ => pdict [], fun _ => pdict [], fun _ => pdict [],
   fun _ => pdict [("domains", plist
     [pdict [("name", pstr "foobar.eth"), ("resolvedAddress", pdict [("id", pstr "0xB")])],
      pdict [("name", pstr "foo-indexer.eth"), ("resolvedAddress", pdict [("id", pstr "0xA")])]])]⟩

/-- C1 counterexample: with partial-search candidates
`["foobar.eth" ↦ 0xB, "foo-indexer.eth" ↦ 0xA]` in that order and no exact
matches, the claim requires the separator-bounded `"foo-indexer.eth"` (0xA) to
win *regardless of the positions in the search-result order*; the code instead
returns 0xB, the mere-prefix candidate that came first. -/
theorem c1_counterexample_order_beats_separator :
    (resolve_name tSepOrder "foo").1 = .ok (pstr "0xB") ∧
    (resolve_name tSepOrder "foo").1 ≠ .ok (pstr "0xA") := by
  refine ⟨rfl, ?_⟩
  intro h
  rw [show (resolve_name tSepOrder "foo").1 = Except.ok (pstr "0xB") from rfl] at h
  exact absurd (PyVal.pstr.inj (Except.ok.inj h)) (by decide)

/-! ## Machinery for the batch operation -/

/-- State reached by an aborted-or-completed `Except BatchAcc BatchAcc`
computation (the Python mutations survive a raised exception). -/
def dlAcc : Except BatchAcc BatchAcc → BatchAcc
  | .ok a => a
  | .error a => a

/-- The `to_query` list produced by the cache-scan phase of
`resolve_addresses_batch` for a given cache and input list. -/
def toQueryOf (c : Cache) (addresses : List String) : List String :=
  (cacheScanGo c (normInputs addresses) [] []).2

theorem cacheScanGo_snd (c : Cache) (as : List String)
    (res : List (String × PyVal)) (tq : List String) :
    (cacheScanGo c as res tq).2 = tq ++ as.filter (fun a => (lookupKV c a).isNone) := by
  induction as generalizing res tq with
  | nil => simp [cacheScanGo]
  | cons a rest ih =>
    cases hl : lookupKV c a with
    | some e => simp [cacheScanGo, hl, ih]
    | none => simp [cacheScanGo, hl, ih]

theorem cacheScanGo_fst_isSome (c : Cache) (as : List String)
    (res : List (String × PyVal)) (tq : List String) (k : String) :
    (lookupKV (cacheScanGo c as res tq).1 k).isSome ↔
      ((lookupKV res k).isSome ∨ (k ∈ as ∧ (lookupKV c k).isSome)) := by
  induction as generalizing res tq with
  | nil => simp [cacheScanGo]
  | cons a rest ih =>
    cases hl : lookupKV c a with
    | some e =>
      simp only [cacheScanGo, hl]
      rw [ih]
      by_cases hk : k = a
      · subst hk
        simp [lookupKV_setKV_self, hl]
      · rw [lookupKV_setKV_ne _ _ _ _ hk]
        simp only [List.mem_cons]
        constructor
        · rintro (h | h)
          · exact Or.inl h
          · exact Or.inr ⟨Or.inr h.1, h.2⟩
        · rintro (h | ⟨(h1 | h1), h2⟩)
          · exact Or.inl h
          · exact absurd h1 hk
          · exact Or.inr ⟨h1, h2⟩
    | none =>
      simp only [cacheScanGo, hl]
      rw [ih]
      by_cases hk : k = a
      · subst hk
        simp [hl]
      · simp [hk]

/-- Consistency between the batch `results` dict and the cache: every result
value is the name view of a cache entry at the same key. -/
def ResCacheOK (res : List (String × PyVal)) (cache : Cache) : Prop :=
  ∀ k v, lookupKV res k = some v → ∃ e, lookupKV cache k = some e ∧ entryView e = v

theorem cacheScanGo_resview (c : Cache) (as : List String)
    (res : List (String × PyVal)) (tq : List String) (h : ResCacheOK res c) :
    ResCacheOK (cacheScanGo c as res tq).1 c := by
  induction as generalizing res tq with
  | nil => exact h
  | cons a rest ih =>
    cases hl : lookupKV c a with
    | some e =>
      simp only [cacheScanGo, hl]
      apply ih
      intro k v hkv
      by_cases hk : k = a
      · subst hk
        rw [lookupKV_setKV_self] at hkv
        exact ⟨e, hl, Option.some.inj hkv⟩
      · rw [lookupKV_setKV_ne _ _ _ _ hk] at hkv
        exact h k v hkv
    | none =>
      simp only [cacheScanGo, hl]
      exact ih _ _ h

theorem domainStep_resview (now : Int) (d : PyVal) (acc : BatchAcc)
    (h : ResCacheOK acc.results acc.cache) :
    ResCacheOK (dlAcc (domainStep now d acc)).results (dlAcc (domainStep now d acc)).cache := by
  cases hra : pyGetD d "resolvedAddress" (pdict []) with
  | error e => simp only [domainStep, hra, dlAcc]; exact h
  | ok ra =>
    cases hid : pyGetD ra "id" (pstr "") with
    | error e => simp only [domainStep, hra, hid, dlAcc]; exact h
    | ok idv =>
      cases hlo : pyLowerStr idv with
      | error e => simp only [domainStep, hra, hid, hlo, dlAcc]; exact h
      | ok addr =>
        cases hnm : pyGetD d "name" pnone with
        | error e => simp only [domainStep, hra, hid, hlo, hnm, dlAcc]; exact h
        | ok namev =>
          by_cases hg : (!(addr = "" : Bool) && truthy namev) = true
          · simp only [domainStep, hra, hid, hlo, hnm, hg, if_true, dlAcc]
            intro k v hkv
            by_cases hk : k = addr
            · subst hk
              rw [lookupKV_setKV_self] at hkv
              refine ⟨mkEntry namev now, lookupKV_setKV_self _ _ _, ?_⟩
              rw [← Option.some.inj hkv]
              rfl
            · rw [lookupKV_setKV_ne _ _ _ _ hk] at hkv
              obtain ⟨e0, he0, hv0⟩ := h k v hkv
              refine ⟨e0, ?_, hv0⟩
              rw [lookupKV_setKV_ne _ _ _ _ hk]
              exact he0
          · simp only [domainStep, hra, hid, hlo, hnm, dlAcc, if_neg hg]
            exact h

theorem domainLoop_resview (now : Int) (ds : List PyVal) (acc : BatchAcc)
    (h : ResCacheOK acc.results acc.cache) :
    ResCacheOK (dlAcc (domainLoop now ds acc)).results (dlAcc (domainLoop now ds acc)).cache := by
  induction ds generalizing acc with
  | nil => exact h
  | cons d rest ih =>
    have hstep := domainStep_resview now d acc h
    cases hs : domainStep now d acc with
    | error a =>
      rw [hs] at hstep
      simp only [domainLoop, hs, dlAcc]
      exact hstep
    | ok a =>
      rw [hs] at hstep
      simp only [domainLoop, hs]
      exact ih a hstep

theorem negFill_resview (now : Int) (tq : List String) (acc : BatchAcc)
    (h : ResCacheOK acc.results acc.cache) :
    ResCacheOK (negFill now tq acc).results (negFill now tq acc).cache := by
  induction tq generalizing acc with
  | nil => exact h
  | cons a rest ih =>
    cases hl : lookupKV acc.results a with
    | some v =>
      simp only [negFill, hl]
      exact ih acc h
    | none =>
      simp only [negFill, hl]
      apply ih
      intro k v hkv
      by_cases hk : k = a
      · subst hk
        rw [lookupKV_setKV_self] at hkv
        refine ⟨mkEntry pnone now, lookupKV_setKV_self _ _ _, ?_⟩
        rw [← Option.some.inj hkv]
        rfl
      · rw [lookupKV_setKV_ne _ _ _ _ hk] at hkv
        obtain ⟨e0, he0, hv0⟩ := h k v hkv
        refine ⟨e0, ?_, hv0⟩
        rw [lookupKV_setKV_ne _ _ _ _ hk]
        exact he0

theorem negFill_isSome (now : Int) (tq : List String) (acc : BatchAcc) (k : String) :
    (lookupKV (negFill now tq acc).results k).isSome ↔
      ((lookupKV acc.results k).isSome ∨ k ∈ tq) := by
  induction tq generalizing acc with
  | nil => simp [negFill]
  | cons a rest ih =>
    cases hl : lookupKV acc.results a with
    | some v =>
      simp only [negFill, hl]
      rw [ih]
      by_cases hk : k = a
      · subst hk
        simp [hl]
      · simp [hk]
    | none =>
      simp only [negFill, hl]
      rw [ih]
      by_cases hk : k = a
      · subst hk
        simp [lookupKV_setKV_self, hl]
      · rw [lookupKV_setKV_ne _ _ _ _ hk]
        simp [hk]

theorem pyLowerStr_ok {v : PyVal} {s : String} (h : pyLowerStr v = .ok s) :
    ∃ s0, v = pstr s0 ∧ s = strLower s0 := by
  cases v with
  | pstr s0 =>
    simp only [pyLowerStr, Except.ok.injEq] at h
    exact ⟨s0, rfl, h.symm⟩
  | pnone => simp [pyLowerStr] at h
  | pbool b => simp [pyLowerStr] at h
  | pnum n => simp [pyLowerStr] at h
  | plist xs => simp [pyLowerStr] at h
  | pdict kvs => simp [pyLowerStr] at h

theorem domainStep_isSome_bound (now : Int) (d : PyVal) (acc : BatchAcc) (k : String)
    (h : (lookupKV (dlAcc (domainStep now d acc)).results k).isSome) :
    (lookupKV acc.results k).isSome ∨ (∃ s, k = strLower s ∧ k ≠ "") := by
  cases hra : pyGetD d "resolvedAddress" (pdict []) with
  | error e => simp only [domainStep, hra, dlAcc] at h; exact Or.inl h
  | ok ra =>
    cases hid : pyGetD ra "id" (pstr "") with
    | error e => simp only [domainStep, hra, hid, dlAcc] at h; exact Or.inl h
    | ok idv =>
      cases hlo : pyLowerStr idv with
      | error e => simp only [domainStep, hra, hid, hlo, dlAcc] at h; exact Or.inl h
      | ok addr =>
        cases hnm : pyGetD d "name" pnone with
        | error e => simp only [domainStep, hra, hid, hlo, hnm, dlAcc] at h; exact Or.inl h
        | ok namev =>
          by_cases hg : (!(addr = "" : Bool) && truthy namev) = true
          · simp only [domainStep, hra, hid, hlo, hnm, hg, if_true, dlAcc] at h
            by_cases hk : k = addr
            · subst hk
              obtain ⟨s0, _, hs0⟩ := pyLowerStr_ok hlo
              refine Or.inr ⟨s0, hs0, ?_⟩
              simp only [Bool.and_eq_true, Bool.not_eq_true', decide_eq_false_iff_not] at hg
              exact hg.1
            · rw [lookupKV_setKV_ne _ _ _ _ hk] at h
              exact Or.inl h
          · simp only [domainStep, hra, hid, hlo, hnm, dlAcc, if_neg hg] at h
            exact Or.inl h

theorem domainStep_isSome_mono (now : Int) (d : PyVal) (acc : BatchAcc) (k : String)
    (h : (lookupKV acc.results k).isSome) :
    (lookupKV (dlAcc (domainStep now d acc)).results k).isSome := by
  cases hra : pyGetD d "resolvedAddress" (pdict []) with
  | error e => simp only [domainStep, hra, dlAcc]; exact h
  | ok ra =>
    cases hid : pyGetD ra "id" (pstr "") with
    | error e => simp only [domainStep, hra, hid, dlAcc]; exact h
    | ok idv =>
      cases hlo : pyLowerStr idv with
      | error e => simp only [domainStep, hra, hid, hlo, dlAcc]; exact h
      | ok addr =>
        cases hnm : pyGetD d "name" pnone with
        | error e => simp only [domainStep, hra, hid, hlo, hnm, dlAcc]; exact h
        | ok namev =>
          by_cases hg : (!(addr = "" : Bool) && truthy namev) = true
          · simp only [domainStep, hra, hid, hlo, hnm, hg, if_true, dlAcc]
            by_cases hk : k = addr
            · subst hk
              rw [lookupKV_setKV_self]
              rfl
            · rw [lookupKV_setKV_ne _ _ _ _ hk]
              exact h
          · simp only [domainStep, hra, hid, hlo, hnm, dlAcc, if_neg hg]
            exact h

theorem domainLoop_isSome_bound (now : Int) (ds : List PyVal) (acc : BatchAcc) (k : String)
    (h : (lookupKV (dlAcc (domainLoop now ds acc)).results k).isSome) :
    (lookupKV acc.results k).isSome ∨ (∃ s, k = strLower s ∧ k ≠ "") := by
  induction ds generalizing acc with
  | nil => exact Or.inl h
  | cons d rest ih =>
    cases hs : domainStep now d acc with
    | error a =>
      simp only [domainLoop, hs, dlAcc] at h
      have := domainStep_isSome_bound now d acc k
      rw [hs] at this
      exact this h
    | ok a =>
      simp only [domainLoop, hs] at h
      rcases ih a h with h1 | h1
      · have := domainStep_isSome_bound now d acc k
        rw [hs] at this
        exact this h1
      · exact Or.inr h1

theorem domainLoop_isSome_mono (now : Int) (ds : List PyVal) (acc : BatchAcc) (k : String)
    (h : (lookupKV acc.results k).isSome) :
    (lookupKV (dlAcc (domainLoop now ds acc)).results k).isSome := by
  induction ds generalizing acc with
  | nil => exact h
  | cons d rest ih =>
    have hstep := domainStep_isSome_mono now d acc k h
    cases hs : domainStep now d acc with
    | error a =>
      rw [hs] at hstep
      simp only [domainLoop, hs, dlAcc]
      exact hstep
    | ok a =>
      rw [hs] at hstep
      simp only [domainLoop, hs]
      exact ih a hstep

theorem mem_normInputs (addresses : List String) (k : String) :
    k ∈ normInputs addresses ↔
      ∃ a, a ∈ addresses ∧ a ≠ "" ∧ a ≠ "Unknown" ∧ k = strLower a := by
  constructor
  · intro h
    simp only [normInputs, List.mem_map] at h
    obtain ⟨a, ha, rfl⟩ := h
    rw [List.mem_filter] at ha
    refine ⟨a, ha.1, ?_, ?_, rfl⟩
    · intro hh
      have := ha.2
      rw [hh] at this
      simp at this
    · intro hh
      have := ha.2
      rw [hh] at this
      simp at this
  · rintro ⟨a, ha, h1, h2, rfl⟩
    simp only [normInputs, List.mem_map]
    refine ⟨a, List.mem_filter.mpr ⟨ha, ?_⟩, rfl⟩
    simp [h1, h2]

/-- Well-shapedness of one batch-result record relative to the queried address
list, as the subgraph contract guarantees: a dict whose `resolvedAddress` is
absent or a dict whose `id`, if present, is a string lowercasing into the
queried set (or empty). -/
def domOk (allowed : List String) (d : PyVal) : Bool :=
  match d with
  | pdict dk =>
    match lookupKV dk "resolvedAddress" with
    | none => true
    | some (pdict rk) =>
      match lookupKV rk "id" with
      | none => true
      | some (pstr s) => decide (strLower s = "") || decide (strLower s ∈ allowed)
      | some _ => false
    | some _ => false
  | _ => false

/-- Well-shapedness of a whole batch transport response: a dict whose
`domains` value (defaulting to `[]`) is a list of well-shaped records. -/
def batchShaped (allowed : List String) (r : PyVal) : Bool :=
  match r with
  | pdict kvs =>
    match (lookupKV kvs "domains").getD (plist []) with
    | plist ds => ds.all (domOk allowed)
    | _ => false
  | _ => false

theorem batchShaped_elim {allowed : List String} {r : PyVal}
    (h : batchShaped allowed r = true) :
    ∃ ds, pyGetD r "domains" (plist []) = .ok (plist ds) ∧
      pyIter (plist ds) = .ok ds ∧ ds.all (domOk allowed) = true := by
  cases r with
  | pdict kvs =>
    cases hd : (lookupKV kvs "domains").getD (plist []) with
    | plist ds =>
      refine ⟨ds, ?_, rfl, ?_⟩
      · simp [pyGetD, hd]
      · simpa [batchShaped, hd] using h
    | pnone => simp [batchShaped, hd] at h
    | pbool b => simp [batchShaped, hd] at h
    | pnum n => simp [batchShaped, hd] at h
    | pstr s => simp [batchShaped, hd] at h
    | pdict kvs2 => simp [batchShaped, hd] at h
  | pnone => simp [batchShaped] at h
  | pbool b => simp [batchShaped] at h
  | pnum n => simp [batchShaped] at h
  | pstr s => simp [batchShaped] at h
  | plist xs => simp [batchShaped] at h

theorem domainStep_shaped (now : Int) (allowed : List String) (d : PyVal) (acc : BatchAcc)
    (hok : domOk allowed d = true) :
    ∃ acc', domainStep now d acc = .ok acc' ∧
      ∀ k, (lookupKV acc'.results k).isSome →
        ((lookupKV acc.results k).isSome ∨ k ∈ allowed) := by
  have hemp0 : strLower "" = "" := rfl
  cases d with
  | pdict dk =>
    cases hra : lookupKV dk "resolvedAddress" with
    | none =>
      refine ⟨acc, ?_, fun k hk => Or.inl hk⟩
      simp [domainStep, pyGetD, hra, pyLowerStr, lookupKV, hemp0]
    | some ra0 =>
      cases ra0 with
      | pdict rk =>
        cases hid : lookupKV rk "id" with
        | none =>
          refine ⟨acc, ?_, fun k hk => Or.inl hk⟩
          simp [domainStep, pyGetD, hra, hid, pyLowerStr, hemp0]
        | some idv0 =>
          cases idv0 with
          | pstr s =>
            simp only [domOk, hra, hid] at hok
            by_cases hemp : strLower s = ""
            · refine ⟨acc, ?_, fun k hk => Or.inl hk⟩
              simp [domainStep, pyGetD, hra, hid, pyLowerStr, hemp]
            · have hmem : strLower s ∈ allowed := by
                simp only [Bool.or_eq_true, decide_eq_true_eq] at hok
                tauto
              by_cases htr : truthy ((lookupKV dk "name").getD pnone) = true
              · refine ⟨⟨setKV acc.results (strLower s) ((lookupKV dk "name").getD pnone),
                  setKV acc.cache (strLower s)
                    (mkEntry ((lookupKV dk "name").getD pnone) now)⟩, ?_, ?_⟩
                · simp [domainStep, pyGetD, hra, hid, pyLowerStr, hemp, htr]
                · intro k hk
                  by_cases hkk : k = strLower s
                  · subst hkk
                    exact Or.inr hmem
                  · rw [lookupKV_setKV_ne _ _ _ _ hkk] at hk
                    exact Or.inl hk
              · refine ⟨acc, ?_, fun k hk => Or.inl hk⟩
                simp [domainStep, pyGetD, hra, hid, pyLowerStr, hemp, htr]
          | pnone => simp [domOk, hra, hid] at hok
          | pbool b => simp [domOk, hra, hid] at hok
          | pnum n => simp [domOk, hra, hid] at hok
          | plist xs => simp [domOk, hra, hid] at hok
          | pdict kvs2 => simp [domOk, hra, hid] at hok
      | pnone => simp [domOk, hra] at hok
      | pbool b => simp [domOk, hra] at hok
      | pnum n => simp [domOk, hra] at hok
      | pstr s => simp [domOk, hra] at hok
      | plist xs => simp [domOk, hra] at hok
  | pnone => simp [domOk] at hok
  | pbool b => simp [domOk] at hok
  | pnum n => simp [domOk] at hok
  | pstr s => simp [domOk] at hok
  | plist xs => simp [domOk] at hok

theorem domainLoop_shaped (now : Int) (allowed : List String) (ds : List PyVal)
    (acc : BatchAcc) (hok : ds.all (domOk allowed) = true) :
    ∃ acc', domainLoop now ds acc = .ok acc' ∧
      ∀ k, (lookupKV acc'.results k).isSome →
        ((lookupKV acc.results k).isSome ∨ k ∈ allowed) := by
  induction ds generalizing acc with
  | nil => exact ⟨acc, rfl, fun k hk => Or.inl hk⟩
  | cons d rest ih =>
    rw [List.all_cons, Bool.and_eq_true] at hok
    obtain ⟨a1, hs, hb1⟩ := domainStep_shaped now allowed d acc hok.1
    obtain ⟨a2, hl2, hb2⟩ := ih a1 hok.2
    refine ⟨a2, ?_, ?_⟩
    · simp only [domainLoop, hs, hl2]
    · intro k hk
      rcases hb2 k hk with h1 | h1
      · exact hb1 k h1
      · exact Or.inr h1

theorem batch_resview (t : Transport) (now : Int) (c : Cache) (addresses : List String) :
    ResCacheOK (resolve_addresses_batch t now c addresses).1
      (resolve_addresses_batch t now c addresses).2.1 := by
  have hbase : ResCacheOK ([] : List (String × PyVal)) c := by
    intro k v hkv
    simp [lookupKV] at hkv
  have hscan : ResCacheOK (cacheScanGo c (normInputs addresses) [] []).1 c :=
    cacheScanGo_resview c _ [] [] hbase
  cases h1 : (normInputs addresses).isEmpty with
  | true =>
    simp only [resolve_addresses_batch, h1, if_true]
    exact hbase
  | false =>
    simp only [resolve_addresses_batch, h1, Bool.false_eq_true, if_false]
    cases h2 : (cacheScanGo c (normInputs addresses) [] []).2.isEmpty with
    | true =>
      simp only [h2, if_true]
      exact hscan
    | false =>
      simp only [h2, Bool.false_eq_true, if_false]
      cases hget : pyGetD (t.resolveBatch (cacheScanGo c (normInputs addresses) [] []).2)
          "domains" (plist []) with
      | error e =>
        simp only [hget]
        exact hscan
      | ok dv =>
        cases hiter : pyIter dv with
        | error e =>
          simp only [hget, hiter]
          exact hscan
        | ok ds =>
          have hloopview := domainLoop_resview now ds
            ⟨(cacheScanGo c (normInputs addresses) [] []).1, c⟩ hscan
          cases hloop : domainLoop now ds
              ⟨(cacheScanGo c (normInputs addresses) [] []).1, c⟩ with
          | error acc =>
            rw [hloop] at hloopview
            simp only [hget, hiter, hloop]
            exact hloopview
          | ok acc =>
            rw [hloop] at hloopview
            simp only [hget, hiter, hloop]
            exact negFill_resview now _ acc hloopview

theorem batch_keys_bound (t : Transport) (now : Int) (c : Cache) (addresses : List String)
    (k : String) (h : (lookupKV (resolve_addresses_batch t now c addresses).1 k).isSome) :
    k ∈ normInputs addresses ∨ (∃ s, k = strLower s ∧ k ≠ "") := by
  have hscan : ∀ hk : (lookupKV (cacheScanGo c (normInputs addresses) [] []).1 k).isSome,
      k ∈ normInputs addresses := by
    intro hk
    rcases (cacheScanGo_fst_isSome c _ [] [] k).mp hk with h0 | h0
    · simp [lookupKV] at h0
    · exact h0.1
  have htq : ∀ hk : k ∈ (cacheScanGo c (normInputs addresses) [] []).2,
      k ∈ normInputs addresses := by
    intro hk
    rw [cacheScanGo_snd] at hk
    simp only [List.nil_append] at hk
    exact List.mem_of_mem_filter hk
  cases h1 : (normInputs addresses).isEmpty with
  | true =>
    simp only [resolve_addresses_batch, h1, if_true] at h
    simp [lookupKV] at h
  | false =>
    simp only [resolve_addresses_batch, h1, Bool.false_eq_true, if_false] at h
    cases h2 : (cacheScanGo c (normInputs addresses) [] []).2.isEmpty with
    | true =>
      simp only [h2, if_true] at h
      exact Or.inl (hscan h)
    | false =>
      simp only [h2, Bool.false_eq_true, if_false] at h
      cases hget : pyGetD (t.resolveBatch (cacheScanGo c (normInputs addresses) [] []).2)
          "domains" (plist []) with
      | error e =>
        simp only [hget] at h
        exact Or.inl (hscan h)
      | ok dv =>
        cases hiter : pyIter dv with
        | error e =>
          simp only [hget, hiter] at h
          exact Or.inl (hscan h)
        | ok ds =>
          cases hloop : domainLoop now ds
              ⟨(cacheScanGo c (normInputs addresses) [] []).1, c⟩ with
          | error acc =>
            simp only [hget, hiter, hloop] at h
            have hb := domainLoop_isSome_bound now ds
              ⟨(cacheScanGo c (normInputs addresses) [] []).1, c⟩ k
            rw [hloop] at hb
            rcases hb h with h0 | h0
            · exact Or.inl (hscan h0)
            · exact Or.inr h0
          | ok acc =>
            simp only [hget, hiter, hloop] at h
            rcases (negFill_isSome now _ acc k).mp h with h0 | h0
            · have hb := domainLoop_isSome_bound now ds
                ⟨(cacheScanGo c (normInputs addresses) [] []).1, c⟩ k
              rw [hloop] at hb
              rcases hb h0 with h1 | h1
              · exact Or.inl (hscan h1)
              · exact Or.inr h1
            · exact Or.inl (htq h0)

theorem batch_log (t : Transport) (now : Int) (c : Cache) (addresses : List String) :
    (resolve_addresses_batch t now c addresses).2.2 = [] ∨
    (resolve_addresses_batch t now c addresses).2.2 =
      [QueryCall.qBatch (toQueryOf c addresses)] := by
  cases h1 : (normInputs addresses).isEmpty with
  | true => simp [resolve_addresses_batch, h1]
  | false =>
    simp only [resolve_addresses_batch, h1, Bool.false_eq_true, if_false]
    cases h2 : (cacheScanGo c (normInputs addresses) [] []).2.isEmpty with
    | true => simp [h2]
    | false =>
      simp only [h2, Bool.false_eq_true, if_false]
      cases hget : pyGetD (t.resolveBatch (cacheScanGo c (normInputs addresses) [] []).2)
          "domains" (plist []) with
      | error e => simp [hget, toQueryOf]
      | ok dv =>
        cases hiter : pyIter dv with
        | error e => simp [hget, hiter, toQueryOf]
        | ok ds =>
          cases hloop : domainLoop now ds
              ⟨(cacheScanGo c (normInputs addresses) [] []).1, c⟩ with
          | error acc => simp [hget, hiter, hloop, toQueryOf]
          | ok acc => simp [hget, hiter, hloop, toQueryOf]

/-! ## Claim C4: input short-circuiting -/

/-- C4: `resolve_address` on an empty or sentinel `"Unknown"` address returns
`None` with the cache untouched (and independent of its contents) and no
transport call; `resolve_addresses_batch` drops such inputs: every address in
an issued batch query is the lowercasing of a non-empty non-sentinel input,
the literal strings `""` and `"Unknown"` never occur as output keys, and when
every input is dropped no transport call is made and the output is empty. -/
theorem c4_sentinel_short_circuit :
    (∀ (t : Transport) (now : Int) (c : Cache) (A : String),
      A = "" ∨ A = "Unknown" → resolve_address t now c A = (pnone, c, [])) ∧
    (∀ (t : Transport) (now : Int) (c : Cache) (addresses : List String)
       (L : List String) (x : String),
      QueryCall.qBatch L ∈ (resolve_addresses_batch t now c addresses).2.2 →
      x ∈ L → ∃ a, a ∈ addresses ∧ a ≠ "" ∧ a ≠ "Unknown" ∧ x = strLower a) ∧
    (∀ (t : Transport) (now : Int) (c : Cache) (addresses : List String),
      lookupKV (resolve_addresses_batch t now c addresses).1 "" = none ∧
      lookupKV (resolve_addresses_batch t now c addresses).1 "Unknown" = none) ∧
    (∀ (t : Transport) (now : Int) (c : Cache) (addresses : List String),
      (∀ a ∈ addresses, a = "" ∨ a = "Unknown") →
      resolve_addresses_batch t now c addresses = ([], c, [])) := by
  refine ⟨?_, ?_, ?_, ?_⟩
  · intro t now c A h
    rcases h with h | h <;> simp [resolve_address, h]
  · intro t now c addresses L x hL hx
    rcases batch_log t now c addresses with hlog | hlog
    · rw [hlog] at hL
      simp at hL
    · rw [hlog, List.mem_singleton] at hL
      have hLe : L = toQueryOf c addresses := QueryCall.qBatch.inj hL
      have hx2 : x ∈ normInputs addresses := by
        rw [hLe] at hx
        unfold toQueryOf at hx
        rw [cacheScanGo_snd] at hx
        simp only [List.nil_append] at hx
        exact List.mem_of_mem_filter hx
      exact (mem_normInputs addresses x).mp hx2
  · intro t now c addresses
    constructor
    · rw [← Option.not_isSome_iff_eq_none]
      intro hs
      rcases batch_keys_bound t now c addresses _ hs with h0 | h0
      · obtain ⟨a, _, ha1, _, heq⟩ := (mem_normInputs _ _).mp h0
        exact ha1 ((strLower_eq_empty_iff a).mp heq.symm)
      · obtain ⟨s, _, hkne⟩ := h0
        exact hkne rfl
    · rw [← Option.not_isSome_iff_eq_none]
      intro hs
      rcases batch_keys_bound t now c addresses _ hs with h0 | h0
      · obtain ⟨a, _, _, _, heq⟩ := (mem_normInputs _ _).mp h0
        exact strLower_ne_Unknown a heq.symm
      · obtain ⟨s, hks, _⟩ := h0
        exact strLower_ne_Unknown s hks.symm
  · intro t now c addresses hall
    have h0 : normInputs addresses = [] := by
      unfold normInputs
      rw [List.map_eq_nil_iff, List.filter_eq_nil_iff]
      intro a ha
      simp [hall a ha]
    simp [resolve_addresses_batch, h0]

/-- C4 witness: the sentinel short-circuit, the batch-query provenance for
inputs `["0xA", "Unknown"]`, the absent sentinel keys, and the all-dropped
batch, at concrete inputs. -/
theorem c4_sentinel_short_circuit_witness :
    resolve_address tNone 0 [] "Unknown" = (pnone, [], []) ∧
    (∃ a, a ∈ ["0xA", "Unknown"] ∧ a ≠ "" ∧ a ≠ "Unknown" ∧ "0xa" = strLower a) ∧
    (lookupKV (resolve_addresses_batch tNone 0 [] ["0xA", "Unknown"]).1 "" = none ∧
     lookupKV (resolve_addresses_batch tNone 0 [] ["0xA", "Unknown"]).1 "Unknown" = none) ∧
    resolve_addresses_batch tNone 0 [] ["", "Unknown"] = ([], [], []) :=
  ⟨c4_sentinel_short_circuit.1 tNone 0 [] "Unknown" (Or.inr rfl),
   c4_sentinel_short_circuit.2.1 tNone 0 [] ["0xA", "Unknown"] ["0xa"] "0xa"
     (by decide) (by decide),
   c4_sentinel_short_circuit.2.2.1 tNone 0 [] ["0xA", "Unknown"],
   c4_sentinel_short_circuit.2.2.2 tNone 0 [] ["", "Unknown"]
     (by decide)⟩

/-! ## Claim C2: batch output completeness -/

/-- A batch transport whose single record carries a **null** (not absent)
`resolvedAddress`. -/
def tBatchNullRA : Transport :=
  ⟨fun _ => pdict [],
   fun _ => pdict [("domains",
     plist [pdict [("name", pstr "x.eth"), ("resolvedAddress", pnone)]])],
   fun _ => pdict [], fun _ => pdict []⟩

/-- C2 counterexample: for the requested valid address `"0xa"` and a transport
result containing one record whose `resolvedAddress` is null, the iteration
raises (`None.get('id')`), the swallowed exception skips the negative fill-in,
and the returned mapping is empty — the requested address is missing, so the
output key set is not the normalized input set. -/
theorem c2_counterexample_null_resolved :
    "0xa" ∈ normInputs ["0xa"] ∧
    (resolve_addresses_batch tBatchNullRA 0 [] ["0xa"]).1 = [] ∧
    lookupKV (resolve_addresses_batch tBatchNullRA 0 [] ["0xa"]).1 "0xa" = none := by
  refine ⟨by decide, rfl, ?_⟩
  rw [show (resolve_addresses_batch tBatchNullRA 0 [] ["0xa"]).1 = [] from rfl]
  rfl

/-- C2 (amended): when every record of the batch transport result is an object
whose `resolvedAddress` is absent or an object whose id, if present, is a
string lowercasing into the queried set (the subgraph contract; in particular
records whose `resolvedAddress` field is *absent* are fine, null is not), the
output key set is exactly the input addresses after lowercasing, dropping
empty strings and the `"Unknown"` sentinel, and de-duplicating — no requested
address is missing and no foreign key appears. -/
theorem c2_batch_complete_when_shaped (t : Transport) (now : Int) (c : Cache)
    (addresses : List String)
    (hsh : batchShaped (toQueryOf c addresses)
      (t.resolveBatch (toQueryOf c addresses)) = true) :
    ∀ k, (lookupKV (resolve_addresses_batch t now c addresses).1 k).isSome ↔
      k ∈ normInputs addresses := by
  intro k
  cases h1 : (normInputs addresses).isEmpty with
  | true =>
    simp only [resolve_addresses_batch, h1, if_true]
    rw [List.isEmpty_iff] at h1
    simp [lookupKV, h1]
  | false =>
    simp only [resolve_addresses_batch, h1, Bool.false_eq_true, if_false]
    cases h2 : (cacheScanGo c (normInputs addresses) [] []).2.isEmpty with
    | true =>
      simp only [h2, if_true]
      rw [cacheScanGo_fst_isSome]
      have hallc : ∀ a ∈ normInputs addresses, (lookupKV c a).isSome := by
        rw [List.isEmpty_iff, cacheScanGo_snd] at h2
        simp only [List.nil_append] at h2
        intro a ha
        by_contra hnone
        have hmem : a ∈ List.filter (fun a => (lookupKV c a).isNone) (normInputs addresses) :=
          List.mem_filter.mpr ⟨ha, by
            simp only [Option.not_isSome_iff_eq_none] at hnone
            simp [hnone]⟩
        rw [h2] at hmem
        simp at hmem
      constructor
      · rintro (h0 | h0)
        · simp [lookupKV] at h0
        · exact h0.1
      · intro h0
        exact Or.inr ⟨h0, hallc k h0⟩
    | false =>
      obtain ⟨ds, hget, hiter, hall⟩ := batchShaped_elim hsh
      unfold toQueryOf at hget hall
      obtain ⟨acc, hloop, hbound⟩ := domainLoop_shaped now
        ((cacheScanGo c (normInputs addresses) [] []).2) ds
        ⟨(cacheScanGo c (normInputs addresses) [] []).1, c⟩ hall
      simp only [h2, Bool.false_eq_true, if_false, hget, pyIter, hloop]
      rw [negFill_isSome]
      have htq_sub : ∀ x ∈ (cacheScanGo c (normInputs addresses) [] []).2,
          x ∈ normInputs addresses := by
        intro x hx
        rw [cacheScanGo_snd] at hx
        simp only [List.nil_append] at hx
        exact List.mem_of_mem_filter hx
      have hscan_sub : ∀ hk : (lookupKV (cacheScanGo c (normInputs addresses) [] []).1 k).isSome,
          k ∈ normInputs addresses := by
        intro hk
        rcases (cacheScanGo_fst_isSome c _ [] [] k).mp hk with h0 | h0
        · simp [lookupKV] at h0
        · exact h0.1
      constructor
      · rintro (h0 | h0)
        · rcases hbound k h0 with h3 | h3
          · exact hscan_sub h3
          · exact htq_sub k h3
        · exact htq_sub k h0
      · intro h0
        by_cases hc : (lookupKV c k).isSome
        · left
          have hscan1 : (lookupKV (cacheScanGo c (normInputs addresses) [] []).1 k).isSome :=
            (cacheScanGo_fst_isSome c _ [] [] k).mpr (Or.inr ⟨h0, hc⟩)
          have hmono := domainLoop_isSome_mono now ds
            ⟨(cacheScanGo c (normInputs addresses) [] []).1, c⟩ k hscan1
          rw [hloop] at hmono
          exact hmono
        · right
          rw [cacheScanGo_snd]
          simp only [List.nil_append]
          refine List.mem_filter.mpr ⟨h0, ?_⟩
          simp only [Option.not_isSome_iff_eq_none] at hc
          simp [hc]

/-- A batch transport with one well-shaped positive record for `0xA`. -/
def tBatchOne : Transport :=
  ⟨fun _ => pdict [],
   fun _ => pdict [("domains",
     plist [pdict [("name", pstr "x.eth"),
                   ("resolvedAddress", pdict [("id", pstr "0xA")])]])],
   fun _ => pdict [], fun _ => pdict []⟩

/-- C2 witness: both requested addresses (one resolved positively, one
negatively) appear in the output of a shaped batch, and a foreign key does
not. -/
theorem c2_batch_complete_when_shaped_witness :
    ((lookupKV (resolve_addresses_batch tBatchOne 0 [] ["0xA", "0xB"]).1 "0xa").isSome ↔
      "0xa" ∈ normInputs ["0xA", "0xB"]) ∧
    ((lookupKV (resolve_addresses_batch tBatchOne 0 [] ["0xA", "0xB"]).1 "0xz").isSome ↔
      "0xz" ∈ normInputs ["0xA", "0xB"]) :=
  ⟨c2_batch_complete_when_shaped tBatchOne 0 [] ["0xA", "0xB"] (by decide) "0xa",
   c2_batch_complete_when_shaped tBatchOne 0 [] ["0xA", "0xB"] (by decide) "0xz"⟩

/-! ## Claim C7: batch/single consistency -/

/-- C7: if the batch resolved (lowercased) address `A` to a value `v` — in
particular positively to a name `X` — a subsequent `resolve_address(A)` on the
same client returns the same `v` from the cache, leaving the cache unchanged
and issuing no transport call. -/
theorem c7_batch_then_single_consistent (t t2 : Transport) (now now2 : Int) (c : Cache)
    (addresses : List String) (A : String) (v : PyVal)
    (hA1 : A ≠ "") (hA2 : A ≠ "Unknown")
    (hres : lookupKV (resolve_addresses_batch t now c addresses).1 (strLower A) = some v) :
    resolve_address t2 now2 (resolve_addresses_batch t now c addresses).2.1 A =
      (v, (resolve_addresses_batch t now c addresses).2.1, ([] : List QueryCall)) := by
  obtain ⟨e, he, hv⟩ := batch_resview t now c addresses (strLower A) v hres
  have hA : ¬(A = "" ∨ A = "Unknown") := by rintro (h | h); exacts [hA1 h, hA2 h]
  simp only [resolve_address, if_neg hA, he]
  rw [hv]

/-- C7 witness: `0xA` resolved to `"x.eth"` by the batch, then re-resolved
singly from the cache against a dead transport. -/
theorem c7_batch_then_single_consistent_witness :
    resolve_address tNone 9 (resolve_addresses_batch tBatchOne 5 [] ["0xA"]).2.1 "0xA" =
      (pstr "x.eth", (resolve_addresses_batch tBatchOne 5 [] ["0xA"]).2.1,
       ([] : List QueryCall)) :=
  c7_batch_then_single_consistent tBatchOne tNone 5 9 [] ["0xA"] "0xA" (pstr "x.eth")
    (by decide) (by decide) rfl

/-! ## Claim C1: characterizing the substring-search stage -/

/-- A partial-search candidate abstracted to (name, optional resolved id),
embedded as the wire record the code consumes. -/
def mkDomain : String × Option String → PyVal
  | (nm, some i) => pdict [("name", pstr nm), ("resolvedAddress", pdict [("id", pstr i)])]
  | (nm, none) => pdict [("name", pstr nm)]

/-- Whether one candidate satisfies the loop's acceptance test: a non-empty
resolved id and a lowercased name starting with the fragment — with a `-` or
`.` separator or with none (the two checks return the same id, so they merge
per candidate). -/
def candHit (n : String) (d : String × Option String) : Bool :=
  match d.2 with
  | some i =>
    !(i == "") &&
      ((strStarts (strLower d.1) (n ++ "-") || strStarts (strLower d.1) (n ++ ".")) ||
        strStarts (strLower d.1) n)
  | none => false

/-- The address the substring-search stage picks, per the code: the first
candidate in search order passing `candHit`, else the first result's id (if
non-empty), else nothing. -/
def specSearchPick (n : String) (ds : List (String × Option String)) : Option String :=
  match ds.find? (candHit n) with
  | some d => d.2
  | none =>
    match ds with
    | [] => none
    | d0 :: _ =>
      match d0.2 with
      | some i => if i = "" then none else some i
      | none => none

/-- The value of the loop alone: the first hit's id as a `PyVal`. -/
def specLoopPick (n : String) (ds : List (String × Option String)) : Option PyVal :=
  match ds.find? (candHit n) with
  | some d => some (pstr (d.2.getD ""))
  | none => none

theorem fuzzyStep_mkDomain_some (n nm : String) (i : String) :
    fuzzyStep n (mkDomain (nm, some i)) =
      .ok (if candHit n (nm, some i) then some (pstr i) else none) := by
  by_cases hi : (i == "") = true
  · simp [fuzzyStep, mkDomain, pyGetD, lookupKV, pyLowerStr, truthy, candHit, hi]
  · by_cases h12 : (strStarts (strLower nm) (n ++ "-") ||
        strStarts (strLower nm) (n ++ ".")) = true
    · simp [fuzzyStep, mkDomain, pyGetD, lookupKV, pyLowerStr, truthy, candHit, hi, h12]
    · by_cases h3 : strStarts (strLower nm) n = true
      · simp [fuzzyStep, mkDomain, pyGetD, lookupKV, pyLowerStr, truthy, candHit, hi, h12, h3]
      · simp [fuzzyStep, mkDomain, pyGetD, lookupKV, pyLowerStr, truthy, candHit, hi, h12, h3]

theorem fuzzyStep_mkDomain_none (n nm : String) :
    fuzzyStep n (mkDomain (nm, none)) = .ok none := by
  simp [fuzzyStep, mkDomain, pyGetD, lookupKV, pyLowerStr, truthy]

theorem fuzzyLoop_mkDomain (n : String) (ds : List (String × Option String)) :
    fuzzyLoop n (ds.map mkDomain) = .ok (specLoopPick n ds) := by
  induction ds with
  | nil => rfl
  | cons d rest ih =>
    obtain ⟨nm, oi⟩ := d
    cases oi with
    | none =>
      rw [List.map_cons]
      simp only [fuzzyLoop, fuzzyStep_mkDomain_none]
      rw [ih]
      have hc : candHit n (nm, none) = false := rfl
      simp [specLoopPick, List.find?, hc]
    | some i =>
      rw [List.map_cons]
      simp only [fuzzyLoop, fuzzyStep_mkDomain_some]
      by_cases hc : candHit n (nm, some i) = true
      · simp [hc, specLoopPick, List.find?]
      · rw [Bool.not_eq_true] at hc
        simp only [hc, if_false]
        rw [ih]
        simp [specLoopPick, List.find?, hc]

theorem lastPick_mkDomain (d0 : String × Option String) (rest : List PyVal) :
    lastPick (plist (mkDomain d0 :: rest)) =
      .ok (match d0.2 with
        | some i => if i = "" then pnone else pstr i
        | none => pnone) := by
  obtain ⟨nm, oi⟩ := d0
  cases oi with
  | some i =>
    by_cases hi : i = "" <;>
      simp [lastPick, mkDomain, getItem0, pyGetD, lookupKV, truthy, hi]
  | none => simp [lastPick, mkDomain, getItem0, pyGetD, lookupKV, truthy]

theorem fuzzyStage_mkDomains (n : String) (ds : List (String × Option String)) :
    fuzzyStage (pdict [("domains", plist (ds.map mkDomain))]) n =
      .ok (match specSearchPick n ds with | some i => pstr i | none => pnone) := by
  cases ds with
  | nil => rfl
  | cons d0 rest =>
    have hmap : (d0 :: rest).map mkDomain = mkDomain d0 :: rest.map mkDomain :=
      List.map_cons mkDomain d0 rest
    have hred : fuzzyStage (pdict [("domains", plist ((d0 :: rest).map mkDomain))]) n =
        (match fuzzyLoop n ((d0 :: rest).map mkDomain) with
         | .error e => .error e
         | .ok (some v) => .ok v
         | .ok none => lastPick (plist ((d0 :: rest).map mkDomain))) := by
      rw [hmap]
      rfl
    rw [hred, fuzzyLoop_mkDomain]
    cases hf : (d0 :: rest).find? (candHit n) with
    | some d =>
      have hhit : candHit n d = true := List.find?_some hf
      obtain ⟨dn, doi⟩ := d
      cases doi with
      | none => simp [candHit] at hhit
      | some i => simp [specLoopPick, specSearchPick, hf]
    | none =>
      simp only [specLoopPick, specSearchPick, hf]
      rw [hmap, lastPick_mkDomain d0 (rest.map mkDomain)]
      obtain ⟨nm, oi⟩ := d0
      cases oi with
      | some i => by_cases hi : i = "" <;> simp [hi]
      | none => rfl

/-- C1 (amended): when neither exact stage yields an address (both return
`.ok none`) and the partial search returns the candidate list `ds`,
`resolve_name` returns the address of the **first candidate in search-result
order** whose lowercased name starts with the fragment — with a `'-'`/`'.'`
separator or without — and whose record carries a non-empty resolved id; a
separator-bounded candidate is *not* preferred over an earlier mere-prefix
candidate.  If no candidate's name starts with the fragment, the first
(newest) search result's id is returned when present and non-empty, else
`None`. -/
theorem c1_first_match_in_search_order (t : Transport) (nm : String)
    (ds : List (String × Option String))
    (h1 : exactStage (t.exactName (strLower nm)) = .ok none)
    (h2 : exactStage (t.exactName (strLower nm ++ ".eth")) = .ok none)
    (h3 : t.nameContains (strLower nm) = pdict [("domains", plist (ds.map mkDomain))]) :
    (resolve_name t nm).1 =
      .ok (match specSearchPick (strLower nm) ds with
        | some i => pstr i
        | none => pnone) := by
  cases he : strEnds (strLower nm) ".eth" with
  | true =>
    simp only [resolve_name, h1, he, if_true, h3]
    rw [fuzzyStage_mkDomains]
  | false =>
    simp only [resolve_name, h1, h2, he, Bool.false_eq_true, if_false, h3]
    rw [fuzzyStage_mkDomains]

/-- C1 witness: the amended rule applied to the counterexample scenario —
the first (mere-prefix) candidate `"foobar.eth"` wins. -/
theorem c1_first_match_in_search_order_witness :
    (resolve_name tSepOrder "foo").1 = .ok (pstr "0xB") := by
  have h := c1_first_match_in_search_order tSepOrder "foo"
    [("foobar.eth", some "0xB"), ("foo-indexer.eth", some "0xA")] rfl rfl rfl
  rw [h]
  rfl

/-! ## Well-formed cache entries and the load/save round trip -/

/-- A stored name value: a string or `None`. -/
def wfName : PyVal → Bool
  | pstr _ => true
  | pnone => true
  | _ => false

/-- A well-formed in-memory cache entry: a dict with a string-or-null `name`
and a numeric `timestamp`. -/
def wfEntry : PyVal → Bool
  | pdict kvs =>
    (match lookupKV kvs "name" with
     | some nv => wfName nv
     | none => false) &&
    (match lookupKV kvs "timestamp" with
     | some (pnum _) => true
     | _ => false)
  | _ => false

/-- Every entry of the in-memory cache is well-formed. -/
def wfCache (c : Cache) : Bool := c.all fun kv => wfEntry kv.2

/-- A value the system itself persists: a well-formed entry, or a legacy bare
string / null. -/
def wfDocVal (e : PyVal) : Bool :=
  wfEntry e || (match e with | pstr _ => true | pnone => true | _ => false)

/-- A persisted document the system (current or legacy) could have written. -/
def wfDoc (doc : PyVal) : Bool :=
  match doc with
  | pdict kvs => kvs.all fun p => wfDocVal p.2
  | _ => false

/-- The load-time freshness test applied to a well-formed entry. -/
def keepFresh (now ttl : Int) (e : PyVal) : Bool :=
  match e with
  | pdict kvs =>
    match lookupKV kvs "timestamp" with
    | some tsv =>
      match pyToNum tsv with
      | some ts => decide (now - ts < ttl)
      | none => false
    | none => false
  | _ => false

theorem wfEntry_elim {e : PyVal} (h : wfEntry e = true) :
    ∃ kvs nv ts, e = pdict kvs ∧ lookupKV kvs "name" = some nv ∧ wfName nv = true ∧
      lookupKV kvs "timestamp" = some (pnum ts) := by
  cases e with
  | pdict kvs =>
    cases hn : lookupKV kvs "name" with
    | none => simp [wfEntry, hn] at h
    | some nv =>
      cases ht : lookupKV kvs "timestamp" with
      | none => simp [wfEntry, hn, ht] at h
      | some tsv =>
        cases tsv with
        | pnum ts =>
          refine ⟨kvs, nv, ts, rfl, hn, ?_, ht⟩
          simpa [wfEntry, hn, ht] using h
        | pnone => simp [wfEntry, hn, ht] at h
        | pbool b => simp [wfEntry, hn, ht] at h
        | pstr s => simp [wfEntry, hn, ht] at h
        | plist xs => simp [wfEntry, hn, ht] at h
        | pdict kvs2 => simp [wfEntry, hn, ht] at h
  | pnone => simp [wfEntry] at h
  | pbool b => simp [wfEntry] at h
  | pnum n => simp [wfEntry] at h
  | pstr s => simp [wfEntry] at h
  | plist xs => simp [wfEntry] at h

theorem wfEntry_mkEntry (v : PyVal) (now : Int) (h : wfName v = true) :
    wfEntry (mkEntry v now) = true := by
  simp [wfEntry, mkEntry, lookupKV, h]

theorem wfCache_iff (c : Cache) :
    wfCache c = true ↔ ∀ p ∈ c, wfEntry p.2 = true := by
  simp [wfCache, List.all_eq_true]

theorem wfCache_setKV (c : Cache) (k : String) (v : PyVal)
    (hc : wfCache c = true) (hv : wfEntry v = true) :
    wfCache (setKV c k v) = true := by
  rw [wfCache_iff] at hc ⊢
  induction c with
  | nil =>
    intro p hp
    simp only [setKV, List.mem_singleton] at hp
    rw [hp]
    exact hv
  | cons q rest ih =>
    obtain ⟨k0, v0⟩ := q
    by_cases h0 : k0 = k
    · intro p hp
      simp only [setKV, if_pos h0, List.mem_cons] at hp
      rcases hp with hp | hp
      · rw [hp]
        exact hv
      · exact hc p (List.mem_cons_of_mem _ hp)
    · intro p hp
      simp only [setKV, if_neg h0, List.mem_cons] at hp
      rcases hp with hp | hp
      · rw [hp]
        exact hc (k0, v0) (List.mem_cons_self _ _)
      · exact ih (fun q hq => hc q (List.mem_cons_of_mem _ hq)) p hp

theorem loadGo_wf_append (now ttl : Int) (kvs : List (String × PyVal)) (acc : Cache)
    (hwf : ∀ p ∈ kvs, wfEntry p.2 = true)
    (hdisj : ∀ p ∈ kvs, lookupKV acc p.1 = none)
    (hnd : (kvs.map Prod.fst).Nodup) :
    loadGo now ttl kvs acc = acc ++ kvs.filter (fun p => keepFresh now ttl p.2) := by
  induction kvs generalizing acc with
  | nil => simp [loadGo]
  | cons p rest ih =>
    obtain ⟨a, e⟩ := p
    obtain ⟨ekvs, nv, ts, he, hn, hwn, ht⟩ :=
      wfEntry_elim (hwf (a, e) (List.mem_cons_self _ _))
    subst he
    rw [List.map_cons, List.nodup_cons] at hnd
    have hda : lookupKV acc a = none := hdisj (a, pdict ekvs) (List.mem_cons_self _ _)
    have hkeep : keepFresh now ttl (pdict ekvs) = decide (now - ts < ttl) := by
      simp [keepFresh, ht, pyToNum]
    have hrest_wf : ∀ p ∈ rest, wfEntry p.2 = true :=
      fun p hp => hwf p (List.mem_cons_of_mem _ hp)
    simp only [loadGo, hn, ht, pyToNum]
    by_cases hfresh : now - ts < ttl
    · rw [if_pos hfresh, setKV_of_none _ hda]
      rw [ih (acc ++ [(a, pdict ekvs)]) hrest_wf ?hdisj2 hnd.2]
      · rw [List.filter_cons_of_pos (by rw [hkeep]; exact decide_eq_true hfresh)]
        simp [List.append_assoc]
      · case hdisj2 =>
        intro q hq
        rw [lookupKV_append]
        rw [hdisj q (List.mem_cons_of_mem _ hq)]
        have hqa : ¬(a = q.1) := by
          intro heq
          have hq1 : q.1 ∈ rest.map Prod.fst := List.mem_map_of_mem Prod.fst hq
          rw [← heq] at hq1
          exact hnd.1 hq1
        simp [lookupKV, hqa]
    · rw [if_neg hfresh]
      rw [ih acc hrest_wf (fun q hq => hdisj q (List.mem_cons_of_mem _ hq)) hnd.2]
      rw [List.filter_cons_of_neg (by rw [hkeep]; simpa using hfresh)]

theorem lookupKV_filter (l : List (String × PyVal)) (f : PyVal → Bool) (k : String)
    (hnd : (l.map Prod.fst).Nodup) :
    lookupKV (l.filter fun p => f p.2) k =
      (match lookupKV l k with
       | some e => if f e then some e else none
       | none => none) := by
  induction l with
  | nil => rfl
  | cons p rest ih =>
    obtain ⟨a, e⟩ := p
    rw [List.map_cons, List.nodup_cons] at hnd
    by_cases hk : a = k
    · subst hk
      by_cases hf : f e
      · rw [List.filter_cons_of_pos (by simpa using hf)]
        simp [lookupKV, hf]
      · rw [List.filter_cons_of_neg (by simpa using hf)]
        have hnone : lookupKV (rest.filter fun p => f p.2) a = none := by
          apply lookupKV_none_of_not_mem
          intro hmem
          apply hnd.1
          obtain ⟨q, hq, hqa⟩ := List.mem_map.mp hmem
          have hq1 : q.1 ∈ rest.map Prod.fst :=
            List.mem_map_of_mem Prod.fst (List.mem_of_mem_filter hq)
          rw [hqa] at hq1
          exact hq1
        simp [lookupKV, hnone, hf]
    · rw [List.filter_cons]
      cases hfe : f e with
      | true =>
        simp only [if_pos rfl]
        simp only [lookupKV, if_neg hk]
        exact ih hnd.2
      | false =>
        simp only [Bool.false_eq_true, if_false]
        simp only [lookupKV, if_neg hk]
        exact ih hnd.2

/-! ## Claim C6: negative caching and TTL expiry across a reload -/

/-- C6: when the transport yields no match for a valid uncached address `A`,
`resolve_address(A)` returns `None` and writes a negative entry timestamped
`now0`; a client that loads the saved cache at `now1` with `now1 - now0 < ttl`
(strictly before expiry) answers a later `resolve_address(A)` with `None` from
the cache, issuing no transport call; a client loading at `now1` with
`ttl ≤ now1 - now0` drops the entry during load (the freshness predicate
fails) and the later call queries the transport again — stale entries are
never served. -/
theorem c6_negative_cached_until_ttl (t t2 : Transport) (now0 now1 now2 ttl : Int)
    (c : Cache) (A : String)
    (hA1 : A ≠ "") (hA2 : A ≠ "Unknown")
    (hmiss : lookupKV c (strLower A) = none)
    (hneg : tryPositive (t.resolveOne (strLower A)) = none)
    (hwf : wfCache c = true)
    (hnd : (c.map Prod.fst).Nodup) :
    resolve_address t now0 c A =
      (pnone, setKV c (strLower A) (mkEntry pnone now0),
       [QueryCall.qOne (strLower A)]) ∧
    (now1 - now0 < ttl →
      resolve_address t2 now2
        (load_cache (save_doc (resolve_address t now0 c A).2.1) now1 ttl) A =
        (pnone, load_cache (save_doc (resolve_address t now0 c A).2.1) now1 ttl,
         ([] : List QueryCall))) ∧
    (ttl ≤ now1 - now0 →
      lookupKV (load_cache (save_doc (resolve_address t now0 c A).2.1) now1 ttl)
        (strLower A) = none ∧
      (resolve_address t2 now2
        (load_cache (save_doc (resolve_address t now0 c A).2.1) now1 ttl) A).2.2 =
        [QueryCall.qOne (strLower A)]) := by
  have hA : ¬(A = "" ∨ A = "Unknown") := by rintro (h | h); exacts [hA1 h, hA2 h]
  have hc1 : resolve_address t now0 c A =
      (pnone, setKV c (strLower A) (mkEntry pnone now0),
       [QueryCall.qOne (strLower A)]) := by
    simp [resolve_address, if_neg hA, hmiss, hneg]
  have hc1wf : ∀ p ∈ setKV c (strLower A) (mkEntry pnone now0), wfEntry p.2 = true := by
    rw [← wfCache_iff]
    exact wfCache_setKV c _ _ hwf (wfEntry_mkEntry pnone now0 rfl)
  have hc1nd : ((setKV c (strLower A) (mkEntry pnone now0)).map Prod.fst).Nodup := by
    rw [setKV_of_none _ hmiss, List.map_append]
    rw [List.nodup_append]
    refine ⟨hnd, List.nodup_singleton _, ?_⟩
    intro x hx hx1
    simp only [List.map_cons, List.map_nil, List.mem_singleton] at hx1
    rw [hx1] at hx
    exact not_mem_of_lookupKV_none hmiss hx
  have hload : lookupKV
      (load_cache (save_doc (setKV c (strLower A) (mkEntry pnone now0))) now1 ttl)
      (strLower A) =
      (if now1 - now0 < ttl then some (mkEntry pnone now0) else none) := by
    show lookupKV (loadGo now1 ttl (setKV c (strLower A) (mkEntry pnone now0)) []) _ = _
    rw [loadGo_wf_append now1 ttl _ [] hc1wf (fun p _ => rfl) hc1nd]
    rw [List.nil_append]
    rw [lookupKV_filter _ _ _ hc1nd]
    rw [lookupKV_setKV_self]
    show (if keepFresh now1 ttl (mkEntry pnone now0) = true
          then some (mkEntry pnone now0) else none) = _
    have hkeep : keepFresh now1 ttl (mkEntry pnone now0) =
        decide (now1 - now0 < ttl) := by
      simp [keepFresh, mkEntry, lookupKV, pyToNum]
    rw [hkeep]
    by_cases hf : now1 - now0 < ttl
    · simp [hf]
    · simp [hf]
  refine ⟨hc1, ?_, ?_⟩
  · intro hfresh
    rw [hc1]
    have hl2 : lookupKV
        (load_cache (save_doc (setKV c (strLower A) (mkEntry pnone now0))) now1 ttl)
        (strLower A) = some (mkEntry pnone now0) := by
      rw [hload, if_pos hfresh]
    simp only [resolve_address, if_neg hA, hl2]
    rfl
  · intro hstale
    rw [hc1]
    have hl2 : lookupKV
        (load_cache (save_doc (setKV c (strLower A) (mkEntry pnone now0))) now1 ttl)
        (strLower A) = none := by
      rw [hload, if_neg (by omega)]
    refine ⟨hl2, ?_⟩
    cases hp : tryPositive (t2.resolveOne (strLower A)) with
    | some v =>
      simp only [resolve_address, if_neg hA, hl2, hp]
    | none =>
      simp only [resolve_address, if_neg hA, hl2, hp]

/-- C6 witness: a negative result for `"0xAB"` at time 100 with TTL 50, reloaded
fresh at 120 (answered from cache, no query) and stale at 200 (entry dropped,
transport queried again). -/
theorem c6_negative_cached_until_ttl_witness :
    (resolve_address tNone 130
        (load_cache (save_doc (resolve_address tNone 100 [] "0xAB").2.1) 120 50) "0xAB" =
      (pnone, load_cache (save_doc (resolve_address tNone 100 [] "0xAB").2.1) 120 50,
       ([] : List QueryCall))) ∧
    (lookupKV (load_cache (save_doc (resolve_address tNone 100 [] "0xAB").2.1) 200 50)
        "0xab" = none ∧
     (resolve_address tNone 300
        (load_cache (save_doc (resolve_address tNone 100 [] "0xAB").2.1) 200 50)
        "0xAB").2.2 = [QueryCall.qOne "0xab"]) := by
  constructor
  · exact (c6_negative_cached_until_ttl tNone tNone 100 120 130 50 [] "0xAB"
      (by decide) (by decide) rfl rfl rfl List.nodup_nil).2.1 (by decide)
  · have h := (c6_negative_cached_until_ttl tNone tNone 100 200 300 50 [] "0xAB"
      (by decide) (by decide) rfl rfl rfl List.nodup_nil).2.2 (by decide)
    rw [show strLower "0xAB" = "0xab" from rfl] at h
    exact h

/-! ## Machinery for the cache-shape invariant -/

theorem pyGetD_ok_pdict {v : PyVal} {k : String} {dflt x : PyVal}
    (h : pyGetD v k dflt = .ok x) :
    ∃ kvs, v = pdict kvs ∧ x = (lookupKV kvs k).getD dflt := by
  cases v with
  | pdict kvs => exact ⟨kvs, rfl, (Except.ok.inj h).symm⟩
  | pnone => simp [pyGetD] at h
  | pbool b => simp [pyGetD] at h
  | pnum n => simp [pyGetD] at h
  | pstr s => simp [pyGetD] at h
  | plist xs => simp [pyGetD] at h

/-- Well-typedness of a single-address transport response: a positive result
carries a string name (the subgraph schema types `name` as a string). -/
def wtOne (r : PyVal) : Bool :=
  match tryPositive r with
  | some (pstr _) => true
  | some _ => false
  | none => true

/-- Well-typedness of one batch record: if it is a dict whose `name` value is
truthy, that value is a string. -/
def wtDom (d : PyVal) : Bool :=
  match d with
  | pdict dk =>
    match lookupKV dk "name" with
    | some (pstr _) => true
    | some nv => !truthy nv
    | none => true
  | _ => true

/-- Well-typedness of a batch transport response. -/
def wtBatch (r : PyVal) : Bool :=
  match r with
  | pdict kvs =>
    match (lookupKV kvs "domains").getD (plist []) with
    | plist ds => ds.all wtDom
    | _ => true
  | _ => true

theorem loadGo_wf (now ttl : Int) (kvs : List (String × PyVal)) (acc : Cache)
    (hdoc : ∀ p ∈ kvs, wfDocVal p.2 = true) (hacc : wfCache acc = true) :
    wfCache (loadGo now ttl kvs acc) = true := by
  induction kvs generalizing acc with
  | nil => exact hacc
  | cons p rest ih =>
    obtain ⟨a, e⟩ := p
    have hde : wfDocVal e = true := hdoc (a, e) (List.mem_cons_self _ _)
    have hdr : ∀ p ∈ rest, wfDocVal p.2 = true :=
      fun p hp => hdoc p (List.mem_cons_of_mem _ hp)
    cases e with
    | pdict ekvs =>
      have hwfe : wfEntry (pdict ekvs) = true := by
        simpa [wfDocVal] using hde
      obtain ⟨ekvs', nv, ts, heq, hn, hwn, ht⟩ := wfEntry_elim hwfe
      have hek : ekvs' = ekvs := (PyVal.pdict.inj heq).symm
      subst hek
      simp only [loadGo, hn, ht, pyToNum]
      by_cases hfresh : now - ts < ttl
      · rw [if_pos hfresh]
        exact ih _ hdr (wfCache_setKV acc a _ hacc hwfe)
      · rw [if_neg hfresh]
        exact ih _ hdr hacc
    | pstr s =>
      simp only [loadGo]
      exact ih _ hdr (wfCache_setKV acc a _ hacc (by simp [wfEntry, legacyEntry, lookupKV, wfName]))
    | pnone =>
      simp only [loadGo]
      exact ih _ hdr (wfCache_setKV acc a _ hacc (by simp [wfEntry, legacyEntry, lookupKV, wfName]))
    | pbool b =>
      simp only [loadGo]
      exact ih _ hdr hacc
    | pnum n =>
      simp only [loadGo]
      exact ih _ hdr hacc
    | plist xs =>
      simp only [loadGo]
      exact ih _ hdr hacc

theorem domainStep_wf (now : Int) (d : PyVal) (acc : BatchAcc)
    (hwf : wfCache acc.cache = true) (hok : wtDom d = true) :
    wfCache (dlAcc (domainStep now d acc)).cache = true := by
  cases hra : pyGetD d "resolvedAddress" (pdict []) with
  | error e => simp only [domainStep, hra, dlAcc]; exact hwf
  | ok ra =>
    cases hid : pyGetD ra "id" (pstr "") with
    | error e => simp only [domainStep, hra, hid, dlAcc]; exact hwf
    | ok idv =>
      cases hlo : pyLowerStr idv with
      | error e => simp only [domainStep, hra, hid, hlo, dlAcc]; exact hwf
      | ok addr =>
        cases hnm : pyGetD d "name" pnone with
        | error e => simp only [domainStep, hra, hid, hlo, hnm, dlAcc]; exact hwf
        | ok namev =>
          by_cases hg : (!(addr = "" : Bool) && truthy namev) = true
          · simp only [domainStep, hra, hid, hlo, hnm, hg, if_true, dlAcc]
            obtain ⟨dk, hd, _⟩ := pyGetD_ok_pdict hra
            subst hd
            have hnm2 : namev = (lookupKV dk "name").getD pnone :=
              (Except.ok.inj hnm).symm
            rw [Bool.and_eq_true] at hg
            have hwn : wfName namev = true := by
              cases hval : lookupKV dk "name" with
              | none =>
                rw [hval] at hnm2
                simp only [Option.getD_none] at hnm2
                subst hnm2
                have hg2 := hg.2
                simp [truthy] at hg2
              | some nv =>
                rw [hval] at hnm2
                simp only [Option.getD_some] at hnm2
                subst hnm2
                simp only [wtDom, hval] at hok
                cases namev with
                | pstr s => rfl
                | pnone =>
                  have hg2 := hg.2
                  simp [truthy] at hg2
                | pbool b =>
                  rw [Bool.not_eq_true'] at hok
                  exact absurd (hok ▸ hg.2) (by decide)
                | pnum n =>
                  rw [Bool.not_eq_true'] at hok
                  exact absurd (hok ▸ hg.2) (by decide)
                | plist xs =>
                  rw [Bool.not_eq_true'] at hok
                  exact absurd (hok ▸ hg.2) (by decide)
                | pdict kvs2 =>
                  rw [Bool.not_eq_true'] at hok
                  exact absurd (hok ▸ hg.2) (by decide)
            exact wfCache_setKV acc.cache addr _ hwf (wfEntry_mkEntry namev now hwn)
          · simp only [domainStep, hra, hid, hlo, hnm, dlAcc, if_neg hg]
            exact hwf

theorem domainLoop_wf (now : Int) (ds : List PyVal) (acc : BatchAcc)
    (hwf : wfCache acc.cache = true) (hok : ∀ x ∈ ds, wtDom x = true) :
    wfCache (dlAcc (domainLoop now ds acc)).cache = true := by
  induction ds generalizing acc with
  | nil => exact hwf
  | cons d rest ih =>
    have hstep := domainStep_wf now d acc hwf (hok d (List.mem_cons_self _ _))
    cases hs : domainStep now d acc with
    | error a =>
      rw [hs] at hstep
      simp only [domainLoop, hs, dlAcc]
      exact hstep
    | ok a =>
      rw [hs] at hstep
      simp only [domainLoop, hs]
      exact ih a hstep (fun x hx => hok x (List.mem_cons_of_mem _ hx))

theorem negFill_wf (now : Int) (tq : List String) (acc : BatchAcc)
    (hwf : wfCache acc.cache = true) :
    wfCache (negFill now tq acc).cache = true := by
  induction tq generalizing acc with
  | nil => exact hwf
  | cons a rest ih =>
    cases hl : lookupKV acc.results a with
    | some v =>
      simp only [negFill, hl]
      exact ih acc hwf
    | none =>
      simp only [negFill, hl]
      exact ih _ (wfCache_setKV acc.cache a _ hwf (wfEntry_mkEntry pnone now rfl))

theorem domainStep_cache_stable (now : Int) (d : PyVal) (acc : BatchAcc) (k : String)
    (hk : ¬∃ s, k = strLower s) :
    lookupKV (dlAcc (domainStep now d acc)).cache k = lookupKV acc.cache k := by
  cases hra : pyGetD d "resolvedAddress" (pdict []) with
  | error e => simp only [domainStep, hra, dlAcc]
  | ok ra =>
    cases hid : pyGetD ra "id" (pstr "") with
    | error e => simp only [domainStep, hra, hid, dlAcc]
    | ok idv =>
      cases hlo : pyLowerStr idv with
      | error e => simp only [domainStep, hra, hid, hlo, dlAcc]
      | ok addr =>
        cases hnm : pyGetD d "name" pnone with
        | error e => simp only [domainStep, hra, hid, hlo, hnm, dlAcc]
        | ok namev =>
          by_cases hg : (!(addr = "" : Bool) && truthy namev) = true
          · simp only [domainStep, hra, hid, hlo, hnm, hg, if_true, dlAcc]
            obtain ⟨s0, _, hs0⟩ := pyLowerStr_ok hlo
            have hkaddr : k ≠ addr := by
              intro heq
              exact hk ⟨s0, heq.trans hs0⟩
            exact lookupKV_setKV_ne _ _ _ _ hkaddr
          · simp only [domainStep, hra, hid, hlo, hnm, dlAcc, if_neg hg]

theorem domainLoop_cache_stable (now : Int) (ds : List PyVal) (acc : BatchAcc) (k : String)
    (hk : ¬∃ s, k = strLower s) :
    lookupKV (dlAcc (domainLoop now ds acc)).cache k = lookupKV acc.cache k := by
  induction ds generalizing acc with
  | nil => rfl
  | cons d rest ih =>
    have hstep := domainStep_cache_stable now d acc k hk
    cases hs : domainStep now d acc with
    | error a =>
      rw [hs] at hstep
      simp only [domainLoop, hs, dlAcc]
      exact hstep
    | ok a =>
      rw [hs] at hstep
      simp only [domainLoop, hs]
      exact (ih a).trans hstep

theorem negFill_cache_stable (now : Int) (tq : List String) (acc : BatchAcc) (k : String)
    (hk : k ∉ tq) :
    lookupKV (negFill now tq acc).cache k = lookupKV acc.cache k := by
  induction tq generalizing acc with
  | nil => rfl
  | cons a rest ih =>
    have hka : k ≠ a := fun heq => hk (heq ▸ List.mem_cons_self a rest)
    have hkr : k ∉ rest := fun hmem => hk (List.mem_cons_of_mem _ hmem)
    cases hl : lookupKV acc.results a with
    | some v =>
      simp only [negFill, hl]
      exact ih _ hkr
    | none =>
      simp only [negFill, hl]
      rw [ih _ hkr]
      exact lookupKV_setKV_ne _ _ _ _ hka

/-! ## Claim C10: the cache-shape invariant -/

/-- C10: (i) loading any document the system (current or legacy) could have
written yields a cache whose every value is a dict with a string-or-null
`name` and a numeric `timestamp` — legacy strings are normalized at load;
(ii) `resolve_address` preserves this shape when the transport is well-typed
(positive names are strings) and only ever writes the key `strLower A`;
(iii) `resolve_addresses_batch` preserves it for well-typed batch responses
and only writes lowercase-image keys; (iv) consequently every cache value is
a dict, so the non-dict fallback branches of the cache-read paths
(`return entry` at lines 102/158) are unreachable. -/
theorem c10_cache_shape_invariant :
    (∀ (doc : PyVal) (now ttl : Int), wfDoc doc = true →
      wfCache (load_cache doc now ttl) = true) ∧
    (∀ (t : Transport) (now : Int) (c : Cache) (A : String),
      wfCache c = true → wtOne (t.resolveOne (strLower A)) = true →
      wfCache (resolve_address t now c A).2.1 = true ∧
      (∀ k, lookupKV (resolve_address t now c A).2.1 k ≠ lookupKV c k →
        k = strLower A)) ∧
    (∀ (t : Transport) (now : Int) (c : Cache) (addresses : List String),
      wfCache c = true → wtBatch (t.resolveBatch (toQueryOf c addresses)) = true →
      wfCache (resolve_addresses_batch t now c addresses).2.1 = true ∧
      (∀ k, lookupKV (resolve_addresses_batch t now c addresses).2.1 k ≠ lookupKV c k →
        ∃ s, k = strLower s)) ∧
    (∀ (c : Cache), wfCache c = true →
      ∀ k e, lookupKV c k = some e → ∃ kvs, e = pdict kvs) := by
  refine ⟨?_, ?_, ?_, ?_⟩
  · intro doc now ttl hdoc
    cases doc with
    | pdict kvs =>
      have h : ∀ p ∈ kvs, wfDocVal p.2 = true := by
        simp only [wfDoc] at hdoc
        exact List.all_eq_true.mp hdoc
      exact loadGo_wf now ttl kvs [] h rfl
    | pnone => rfl
    | pbool b => rfl
    | pnum n => rfl
    | pstr s => rfl
    | plist xs => rfl
  · intro t now c A hwf hwt
    by_cases hA : A = "" ∨ A = "Unknown"
    · simp only [resolve_address, if_pos hA]
      exact ⟨hwf, fun k hk => absurd rfl hk⟩
    · cases hl : lookupKV c (strLower A) with
      | some e =>
        simp only [resolve_address, if_neg hA, hl]
        exact ⟨hwf, fun k hk => absurd rfl hk⟩
      | none =>
        cases hp : tryPositive (t.resolveOne (strLower A)) with
        | some v =>
          have hv : ∃ s, v = pstr s := by
            unfold wtOne at hwt
            rw [hp] at hwt
            cases v with
            | pstr s => exact ⟨s, rfl⟩
            | pnone => simp at hwt
            | pbool b => simp at hwt
            | pnum n => simp at hwt
            | plist xs => simp at hwt
            | pdict kvs => simp at hwt
          obtain ⟨s, rfl⟩ := hv
          simp only [resolve_address, if_neg hA, hl, hp]
          refine ⟨wfCache_setKV c _ _ hwf (wfEntry_mkEntry (pstr s) now rfl), ?_⟩
          intro k hk
          by_contra hkne
          rw [lookupKV_setKV_ne _ _ _ _ hkne] at hk
          exact hk rfl
        | none =>
          simp only [resolve_address, if_neg hA, hl, hp]
          refine ⟨wfCache_setKV c _ _ hwf (wfEntry_mkEntry pnone now rfl), ?_⟩
          intro k hk
          by_contra hkne
          rw [lookupKV_setKV_ne _ _ _ _ hkne] at hk
          exact hk rfl
  · intro t now c addresses hwf hwt
    unfold toQueryOf at hwt
    cases h1 : (normInputs addresses).isEmpty with
    | true =>
      simp only [resolve_addresses_batch, h1, if_true]
      exact ⟨hwf, fun k hk => absurd rfl hk⟩
    | false =>
      simp only [resolve_addresses_batch, h1, Bool.false_eq_true, if_false]
      cases h2 : (cacheScanGo c (normInputs addresses) [] []).2.isEmpty with
      | true =>
        simp only [h2, if_true]
        exact ⟨hwf, fun k hk => absurd rfl hk⟩
      | false =>
        simp only [h2, Bool.false_eq_true, if_false]
        cases hget : pyGetD (t.resolveBatch (cacheScanGo c (normInputs addresses) [] []).2)
            "domains" (plist []) with
        | error e =>
          simp only [hget]
          exact ⟨hwf, fun k hk => absurd rfl hk⟩
        | ok dv =>
          cases hiter : pyIter dv with
          | error e =>
            simp only [hget, hiter]
            exact ⟨hwf, fun k hk => absurd rfl hk⟩
          | ok ds =>
            have hallwt : ∀ x ∈ ds, wtDom x = true := by
              obtain ⟨rkvs, hr, hdv⟩ := pyGetD_ok_pdict hget
              rw [hr] at hwt
              simp only [wtBatch] at hwt
              rw [← hdv] at hwt
              cases dv with
              | plist l =>
                have hds : ds = l := (Except.ok.inj hiter).symm
                subst hds
                exact List.all_eq_true.mp hwt
              | pstr s =>
                have hds : ds = s.data.map fun c' => pstr (String.mk [c']) :=
                  (Except.ok.inj hiter).symm
                subst hds
                intro x hx
                obtain ⟨c', _, rfl⟩ := List.mem_map.mp hx
                rfl
              | pdict kvs2 =>
                have hds : ds = kvs2.map fun kv => pstr kv.1 :=
                  (Except.ok.inj hiter).symm
                subst hds
                intro x hx
                obtain ⟨kv, _, rfl⟩ := List.mem_map.mp hx
                rfl
              | pnone => simp [pyIter] at hiter
              | pbool b => simp [pyIter] at hiter
              | pnum n => simp [pyIter] at hiter
            have hloopwf := domainLoop_wf now ds
              ⟨(cacheScanGo c (normInputs addresses) [] []).1, c⟩ hwf hallwt
            cases hloop : domainLoop now ds
                ⟨(cacheScanGo c (normInputs addresses) [] []).1, c⟩ with
            | error acc =>
              rw [hloop] at hloopwf
              simp only [hget, hiter, hloop]
              refine ⟨hloopwf, ?_⟩
              intro k hk
              by_contra hkn
              have hstab := domainLoop_cache_stable now ds
                ⟨(cacheScanGo c (normInputs addresses) [] []).1, c⟩ k hkn
              rw [hloop] at hstab
              exact hk hstab
            | ok acc =>
              rw [hloop] at hloopwf
              simp only [hget, hiter, hloop]
              refine ⟨negFill_wf now _ acc hloopwf, ?_⟩
              intro k hk
              by_contra hkn
              have hstab1 := domainLoop_cache_stable now ds
                ⟨(cacheScanGo c (normInputs addresses) [] []).1, c⟩ k hkn
              rw [hloop] at hstab1
              have hknotintq : k ∉ (cacheScanGo c (normInputs addresses) [] []).2 := by
                intro hmem
                rw [cacheScanGo_snd] at hmem
                simp only [List.nil_append] at hmem
                obtain ⟨a, _, _, _, heq⟩ :=
                  (mem_normInputs _ _).mp (List.mem_of_mem_filter hmem)
                exact hkn ⟨a, heq⟩
              have hstab2 := negFill_cache_stable now _ acc k hknotintq
              exact hk (hstab2.trans hstab1)
  · intro c hwfc k e hlk
    obtain ⟨kvs, _, _, he, _, _, _⟩ :=
      wfEntry_elim ((wfCache_iff c).mp hwfc (k, e) (lookupKV_mem hlk))
    exact ⟨kvs, he⟩

/-- C10 witness: a legacy document load, a negative single resolution, a
positive batch resolution, and the dict-shape of a written entry, at concrete
inputs. -/
theorem c10_cache_shape_invariant_witness :
    wfCache (load_cache (pdict [("0xab", pstr "x.eth")]) 100 50) = true ∧
    wfCache (resolve_address tNone 0 [] "0xAB").2.1 = true ∧
    wfCache (resolve_addresses_batch tBatchOne 0 [] ["0xA", "0xB"]).2.1 = true ∧
    (∃ kvs, mkEntry pnone 5 = pdict kvs) :=
  ⟨c10_cache_shape_invariant.1 (pdict [("0xab", pstr "x.eth")]) 100 50 rfl,
   (c10_cache_shape_invariant.2.1 tNone 0 [] "0xAB" rfl rfl).1,
   (c10_cache_shape_invariant.2.2.1 tBatchOne 0 [] ["0xA", "0xB"] rfl rfl).1,
   c10_cache_shape_invariant.2.2.2 [("0xab", mkEntry pnone 5)] rfl "0xab"
     (mkEntry pnone 5) rfl⟩
